import Mathlib

/-!
# Verification of the js-moi-sdk codec core

A shallow embedding of the js-moi-sdk binary-codec layer:

* the interaction canonicalizer (`serializer.js`): `processFunds`,
  `processParticipants`, `processTransactions`, `processIxObject`,
  `serializeIxObject`;
* the manifest codec (`manifest.js`): `parseCalldata`, `encodeArguments`,
  `decodeArguments`, `decodeEventOutput`.

JavaScript values carried through the codec are modelled by the inductive
`Value`; POLO schema nodes by `PoloSchema`.  The in-place schema mutation that
`parseCalldata` performs (struct → document memoization) is modelled by
explicit state passing: every parsing function returns the updated schema next
to the parsed value.  Machine integers are modelled by `Int` (JS `number` used
as an integer) and the number/bigint distinction by the `Amount` type.

External collaborators that are not part of the sources (the js-polo primitive
binary writer/reader, the js-moi-utils hex helpers, the js-moi-constants zero
address) are modelled from the specification; each such definition carries a
doc comment starting with `Modelled from the spec:`.  In particular the
byte-level framing of documents is out of scope for the specification, so the
calldata wire is modelled as the encoded document mapping itself
(`CalldataWire`), which the external reader mirrors.
-/

/-! ## Hex helpers (js-moi-utils) -/

/-- `s.startsWith "0x"`, computed on the character list so that it evaluates
inside the kernel. -/
def starts0x (s : String) : Bool :=
  match s.data with
  | '0' :: 'x' :: _ => true
  | _ => false

/-- Drop the first `k` characters (JS `String.prototype.slice(k)`). -/
def strDropChars (s : String) (k : Nat) : String :=
  String.mk (s.data.drop k)

/-- Modelled from the spec: js-moi-utils `trimHexPrefix` — strip a leading
"0x" format marker from a hex string (source name `trimHexPrefix`). -/
def trim0x (s : String) : String :=
  if starts0x s then String.mk (s.data.drop 2) else s

/-- Value of a single hexadecimal digit character (non-digits give 0). -/
def hexCharVal (c : Char) : Nat :=
  if '0' ≤ c ∧ c ≤ '9' then c.toNat - 48
  else if 'a' ≤ c ∧ c ≤ 'f' then c.toNat - 87
  else if 'A' ≤ c ∧ c ≤ 'F' then c.toNat - 55
  else 0

/-- Pairs of hex digits to bytes. -/
def hexPairs : List Char → List Nat
  | a :: b :: rest => (16 * hexCharVal a + hexCharVal b) :: hexPairs rest
  | _ => []

/-- Modelled from the spec: js-moi-utils `hexToBytes` — addresses, asset ids
and logic ids are fixed-width byte sequences presented in prefixed-hex textual
form at the boundary (§6); the conversion strips the marker and reads byte
pairs. -/
def hexToBytes (s : String) : List Nat :=
  hexPairs (trim0x s).data

/-- Modelled from the spec: js-moi-constants `ZERO_ADDRESS`, the well-known
zero address substituted for an absent payer (§4.3.4). -/
def ZERO_ADDRESS : String :=
  "0x0000000000000000000000000000000000000000000000000000000000000000"

/-! ## The value and schema domains of the manifest codec -/

/-- A JavaScript value as carried through the calldata codec: `vNull` is JS
`null`; `vBytes` a `Uint8Array`; `vArr` an array; `vMap` a `Map` as its entry
list; `vStruct` a plain object (label–value pairs in insertion order); `vDoc`
the raw data of a POLO document (a pre-encoded sub-document), as produced by
`documentEncode(...).getData()`. -/
inductive Value where
  | vNull : Value
  | vInt (n : Int) : Value
  | vBool (b : Bool) : Value
  | vStr (s : String) : Value
  | vBytes (bs : List Nat) : Value
  | vArr (vs : List Value) : Value
  | vMap (es : List (Value × Value)) : Value
  | vStruct (fs : List (String × Value)) : Value
  | vDoc (fs : List (String × Value)) : Value

/-- A POLO schema node (`{kind, fields}` in the source): array nodes carry a
`values` schema, map nodes `keys` and `values`, struct nodes a label→schema
mapping; `document` is a struct node that has been collapsed to an opaque
pre-encoded blob. -/
inductive PoloSchema where
  | integer : PoloSchema
  | boolean : PoloSchema
  | string : PoloSchema
  | bytes : PoloSchema
  | document : PoloSchema
  | array (values : PoloSchema) : PoloSchema
  | map (keys values : PoloSchema) : PoloSchema
  | struct (fields : List (String × PoloSchema)) : PoloSchema

mutual
/-- Structural size of a schema node (used as recursion fuel bound). -/
def schSize : PoloSchema → Nat
  | .integer => 1
  | .boolean => 1
  | .string => 1
  | .bytes => 1
  | .document => 1
  | .array e => schSize e + 1
  | .map k v => schSize k + schSize v + 1
  | .struct fs => schSizeF fs + 1

def schSizeF : List (String × PoloSchema) → Nat
  | [] => 0
  | p :: ps => schSize p.2 + schSizeF ps + 1
end

mutual
/-- Structural size of a value (used as recursion fuel bound). -/
def valSize : Value → Nat
  | .vNull => 1
  | .vInt _ => 1
  | .vBool _ => 1
  | .vStr _ => 1
  | .vBytes _ => 1
  | .vArr vs => valSizeL vs + 1
  | .vMap es => valSizeP es + 1
  | .vStruct fs => valSizeF fs + 1
  | .vDoc fs => valSizeF fs + 1

def valSizeL : List Value → Nat
  | [] => 0
  | v :: vs => valSize v + valSizeL vs + 1

def valSizeP : List (Value × Value) → Nat
  | [] => 0
  | p :: ps => valSize p.1 + valSize p.2 + valSizeP ps + 1

def valSizeF : List (String × Value) → Nat
  | [] => 0
  | p :: ps => valSize p.2 + valSizeF ps + 1
end

/-- `parsableKinds = ["bytes", "array", "map", "struct"]` from the source. -/
def parsableB : PoloSchema → Bool
  | .bytes => true
  | .array _ => true
  | .map _ _ => true
  | .struct _ => true
  | _ => false

def isStructB : PoloSchema → Bool
  | .struct _ => true
  | _ => false

/-- First-match lookup in a label-keyed association list (JS object field
access `o[key]`). -/
def lookupStr {α : Type} : List (String × α) → String → Option α
  | [], _ => none
  | p :: ps, l => if p.1 = l then some p.2 else lookupStr ps l

/-- Replace the value at a label, keeping position; identity when the label is
absent (JS in-place update `o[key] = v`). -/
def setField {α : Type} (ps : List (String × α)) (l : String) (a : α) :
    List (String × α) :=
  ps.map (fun p => if p.1 = l then (l, a) else p)

/-- JS `SameValueZero` equality restricted to the primitive values that can
appear as parsed map keys; distinct freshly-allocated objects are never equal
(reference equality), so non-primitive values compare `false`. -/
def primValEq : Value → Value → Bool
  | .vInt a, .vInt b => a = b
  | .vBool a, .vBool b => a = b
  | .vStr a, .vStr b => a = b
  | _, _ => false

/-- Is the value a JS primitive (for `Map` key identity)? -/
def isPrimValB : Value → Bool
  | .vInt _ => true
  | .vBool _ => true
  | .vStr _ => true
  | _ => false

/-- Calldata parsing maps a primitive value to itself and a non-primitive
value to a non-primitive value; this relation tracks that fact so that map
key identity is preserved. -/
def primShadow (v w : Value) : Prop :=
  (isPrimValB v = true → w = v) ∧ (isPrimValB v = false → isPrimValB w = false)

/-- JS `Map.prototype.set`: replace in place when an (SameValueZero-) equal
key is present, otherwise append. -/
def jsMapSet (m : List (Value × Value)) (k v : Value) : List (Value × Value) :=
  if m.any (fun e => primValEq e.1 k) then
    m.map (fun e => if primValEq e.1 k then (k, v) else e)
  else m ++ [(k, v)]

/-- JS `Map.prototype.set` for string-keyed maps: replace in place (keeping
the original position) when the key is present, otherwise append. -/
def strMapSet {α : Type} (m : List (String × α)) (k : String) (v : α) :
    List (String × α) :=
  if (lookupStr m k).isSome then m.map (fun e => if e.1 = k then (k, v) else e)
  else m ++ [(k, v)]

/-- The guarded `if (!map.has(key)) map.set(key, value)` loop shared by the
supplied-funds and supplied-participants phases: only absent keys are added
(`Map.set` on an absent key appends). -/
def addIfAbsent {α β : Type} (key : β → String) (val : β → α)
    (m : List (String × α)) (items : List β) : List (String × α) :=
  items.foldl
    (fun m x =>
      if (lookupStr m (key x)).isSome then m
      else m ++ [(key x, val x)])
    m

/-! ## `parseCalldata` (manifest.js)

The source mutates schema nodes in place.  The embedding passes the schema
state explicitly: every function returns the updated schema(s) next to the
parsed value.  A fuel argument makes the mutual recursion structural; the
wrappers below instantiate it with `schSize + valSize`, which strictly
exceeds the recursion depth (every call strictly decreases that bound). -/

mutual
/-- `ManifestCoder.parseCalldata(schema, arg, updateType)`.  Returns the
parsed value and the schema node's state after the call.  Non-object
arguments under a `struct` schema throw in JS (`Object.keys` of `null`) and
are outside the modelled domain; they are passed through here. -/
def parseCalldataF : Nat → PoloSchema → Value → Bool → Value × PoloSchema
  | 0, s, v, _ => (v, s)
  | n + 1, s, v, u =>
    match s with
    | .string =>
        (match v with
         | .vStr str => .vStr (trim0x str)
         | w => w,
         .string)
    | .bytes =>
        (match v with
         | .vStr str => .vBytes (hexToBytes str)
         | w => w,
         .bytes)
    | .array e =>
        if parsableB e then
          match v with
          | .vArr vs =>
              let r := parseElemsF n e vs
              (.vArr r.1, .array r.2)
          | w => (w, .array e)
        else (v, .array e)
    | .map mk mv =>
        if parsableB mk || parsableB mv then
          match v with
          | .vMap es =>
              let r := parseEntriesF n mk mv [] es
              (.vMap r.1, .map r.2.1 r.2.2)
          | w => (w, .map mk mv)
        else (v, .map mk mv)
    | .struct fs =>
        match v with
        | .vStruct fvs =>
            let r := parseFieldsStF n fs fvs
            (.vDoc r.1, if u then .document else .struct r.2)
        | w => (w, if u then .document else .struct fs)
    | s' => (v, s')

/-- `parseArray`: each element is parsed under the (shared, threaded) element
schema; the last element is parsed with `updateType = true`. -/
def parseElemsF : Nat → PoloSchema → List Value → List Value × PoloSchema
  | 0, e, vs => (vs, e)
  | _ + 1, e, [] => ([], e)
  | n + 1, e, [v] =>
      let r := parseCalldataF n e v true
      ([r.1], r.2)
  | n + 1, e, v :: v2 :: rest =>
      let r := parseCalldataF n e v false
      let rr := parseElemsF n r.2 (v2 :: rest)
      (r.1 :: rr.1, rr.2)

/-- `parseMap`: entries are parsed in order into a fresh JS `Map`; key and
value of the last entry are parsed with `updateType = true`. -/
def parseEntriesF : Nat → PoloSchema → PoloSchema → List (Value × Value) →
    List (Value × Value) → List (Value × Value) × PoloSchema × PoloSchema
  | 0, mk, mv, acc, es => (acc ++ es, mk, mv)
  | _ + 1, mk, mv, acc, [] => (acc, mk, mv)
  | n + 1, mk, mv, acc, [e] =>
      let rk := parseCalldataF n mk e.1 true
      let rv := parseCalldataF n mv e.2 true
      (jsMapSet acc rk.1 rv.1, rk.2, rv.2)
  | n + 1, mk, mv, acc, e :: e2 :: rest =>
      let rk := parseCalldataF n mk e.1 false
      let rv := parseCalldataF n mv e.2 false
      parseEntriesF n rk.2 rv.2 (jsMapSet acc rk.1 rv.1) (e2 :: rest)

/-- `parseStruct`'s field loop: iterate the argument's own fields, parsing
each under the schema field of the same label with `updateType = false` (a
label absent from the schema throws in JS and is outside the modelled
domain; it is passed through here). -/
def parseFieldsStF : Nat → List (String × PoloSchema) → List (String × Value) →
    List (String × Value) × List (String × PoloSchema)
  | 0, fs, fvs => (fvs, fs)
  | _ + 1, fs, [] => ([], fs)
  | n + 1, fs, (l, av) :: rest =>
      match lookupStr fs l with
      | some s0 =>
          let r := parseCalldataF n s0 av false
          let rr := parseFieldsStF n (setField fs l r.2) rest
          ((l, r.1) :: rr.1, rr.2)
      | none =>
          let rr := parseFieldsStF n fs rest
          ((l, av) :: rr.1, rr.2)
end

/-- Fuel wrapper: `schSize + valSize` strictly exceeds the recursion depth. -/
def parseCalldata (s : PoloSchema) (v : Value) (u : Bool) : Value × PoloSchema :=
  parseCalldataF (schSize s + valSize v) s v u

/-! ## The external reader (js-polo `Depolorizer`) -/

mutual
/-- Modelled from the spec: the external primitive reader
`readUnderSchema(bytes, schema)` (§6), mirroring the writer: primitive kinds
read back the written value; `struct` kinds read a pre-encoded sub-document
(§4.2: struct fields are opaque pre-encoded sub-documents) and decode each
declared field out of it by label; `document` passes the raw blob through.
A wire value that does not match the schema fails. -/
def depolorizeFieldF : Nat → PoloSchema → Value → Option Value
  | 0, _, _ => none
  | n + 1, s, w =>
    match s, w with
    | .integer, .vInt i => some (.vInt i)
    | .boolean, .vBool b => some (.vBool b)
    | .string, .vStr str => some (.vStr str)
    | .bytes, .vBytes bs => some (.vBytes bs)
    | .document, w' => some w'
    | .array e, .vArr ws => (depValsF n e ws).map .vArr
    | .map mk mv, .vMap es => (depEntriesF n mk mv es).map .vMap
    | .struct fs, .vDoc d => (depFieldsF n fs d).map .vStruct
    | _, _ => none

def depValsF : Nat → PoloSchema → List Value → Option (List Value)
  | 0, _, _ => none
  | _ + 1, _, [] => some []
  | n + 1, e, w :: ws =>
      match depolorizeFieldF n e w with
      | some v => (depValsF n e ws).map (fun vs => v :: vs)
      | none => none

def depEntriesF : Nat → PoloSchema → PoloSchema → List (Value × Value) →
    Option (List (Value × Value))
  | 0, _, _, _ => none
  | _ + 1, _, _, [] => some []
  | n + 1, mk, mv, e :: es =>
      match depolorizeFieldF n mk e.1, depolorizeFieldF n mv e.2 with
      | some a, some b => (depEntriesF n mk mv es).map (fun r => (a, b) :: r)
      | _, _ => none

def depFieldsF : Nat → List (String × PoloSchema) → List (String × Value) →
    Option (List (String × Value))
  | 0, _, _ => none
  | _ + 1, [], _ => some []
  | n + 1, (l, s) :: fs, d =>
      match lookupStr d l with
      | some wv =>
          match depolorizeFieldF n s wv with
          | some v => (depFieldsF n fs d).map (fun r => (l, v) :: r)
          | none => none
      | none => none
end

/-- Fuel wrapper for the external reader model. -/
def depolorizeField (s : PoloSchema) (w : Value) : Option Value :=
  depolorizeFieldF (schSize s + valSize w) s w

/-! ## Errors

The SDK raises JS errors through `ErrorUtils.throwError(message, code,
params)`; `params.originalError` carries the wrapped cause.  `unknownError`
models a `CustomError` with `ErrorCode.UNKNOWN_ERROR` wrapping an original
error (the spec's stable `SerializationFailed` surface); `typeError` models a
plain JS `TypeError` (e.g. reading a property of `undefined`). -/
inductive JsError where
  | missingArgument (msg : String) : JsError
  | invalidArgument (msg : String) : JsError
  | typeError (msg : String) : JsError
  | notFound (msg : String) : JsError
  | wireError (msg : String) : JsError
  | unknownError (msg : String) (original : JsError) : JsError
deriving DecidableEq

/-- Does the error chain contain a `MissingArgument` cause? -/
def mentionsMissingArgument : JsError → Bool
  | .missingArgument _ => true
  | .unknownError _ e => mentionsMissingArgument e
  | _ => false

/-! ## `encodeArguments` / `decodeArguments` (manifest.js)

The `Schema` class (`schema.js`) that resolves the routine's `accepts` field
descriptors is not among the sources; per §4.1 its `parseFields` is a pure
deterministic map from the field list to a schema tree, so routines are
embedded directly at its output: a list of `(label, PoloSchema)` pairs in
declaration order (`slot i` = position `i`, dense by the §3 invariant).

The byte-level document framing (`documentEncode(...).bytes()`, the "0x" hex
wrapping, and `new Depolorizer(bytes)`) is the external writer/reader pair of
§6 and is not specified beyond being mutually inverse; the wire is therefore
modelled as the document mapping itself. -/

/-- Modelled from the spec: the POLO-encoded calldata produced by
`documentEncode(calldata, schema).bytes()` and wrapped as a prefixed-hex
string; modelled as the encoded document's label→value mapping. -/
structure CalldataWire where
  doc : List (String × Value)
deriving Inhabited

/-- The `reduce` loop of `encodeArguments`: `acc[field.label] =
parseCalldata(schema.fields[field.label], args[field.slot])` (with the
default `updateType = true`), in declaration order. -/
def encodeFieldsGo : List (String × PoloSchema) → List Value →
    List (String × Value)
  | (l, s) :: fs, a :: rest => (l, (parseCalldata s a true).1) :: encodeFieldsGo fs rest
  | _, _ => []

/-- `ManifestCoder.encodeArguments(routine, ...args)` for a routine embedded
as its resolved `accepts` schema. -/
def encodeArguments (fields : List (String × PoloSchema)) (args : List Value) :
    CalldataWire :=
  ⟨encodeFieldsGo fields args⟩

/-- Decode an encoded document under a field-schema list: each declared field
is read from the document by label and depolorized under its schema (a
missing label or a schema/wire mismatch fails, as the external reader
throws). -/
def depolorizeDocGo : List (String × PoloSchema) → List (String × Value) →
    Option (List (String × Value))
  | [], _ => some []
  | (l, s) :: fs, d =>
      match lookupStr d l with
      | some wv =>
          match depolorizeField s wv with
          | some v => (depolorizeDocGo fs d).map (fun r => (l, v) :: r)
          | none => none
      | none => none

/-- `ManifestCoder.decodeArguments(routine, calldata)`.  `accepts = none`
models a routine object whose `accepts` member is `null`/`undefined`: the
`fields && fields.length === 0` guard is skipped, the document is decoded
under the empty schema (`fields ?? []`), and the final projection
`fields.map(...)` dereferences `null` and throws. -/
def decodeArguments (accepts : Option (List (String × PoloSchema)))
    (w : CalldataWire) : Except JsError (Option (List Value)) :=
  match accepts with
  | some fs =>
      if fs.isEmpty then .ok none
      else
        match depolorizeDocGo fs w.doc with
        | some dec => .ok (some (dec.map Prod.snd))
        | none => .error (.wireError "insufficient data in wire")
  | none =>
      match depolorizeDocGo [] w.doc with
      | _ => .error (.typeError "Cannot read properties of null (reading map)")

/-! ## `decodeEventOutput` (manifest.js)

The event branch for `builtin.Log` hands the log data to the external reader
unconditionally; the reader is a parameter (`depB` under the fixed built-in
log schema, `depE` under the event's resolved field schemas), constrained
only by §6 (`readUnderSchema(bytes, schema) -> value`).  A manifest is
embedded as its event table: name → resolved event field schemas. -/

/-- JS nullable result: the reader's `null` becomes `none`. -/
def valueToNullable : Value → Option Value
  | .vNull => none
  | v => some v

/-- `ManifestCoder.decodeEventOutput(event, logData)`. -/
def decodeEventOutput (depB : List Nat → Value)
    (depE : List (String × PoloSchema) → List Nat → Value)
    (events : List (String × List (String × PoloSchema)))
    (event : String) (logData : String) : Except JsError (Option Value) :=
  if event = "builtin.Log" then
    .ok (valueToNullable (depB (hexToBytes logData)))
  else
    match lookupStr events event with
    | none => .error (.notFound ("Event " ++ event ++ " not found in manifest"))
    | some el =>
        if logData ≠ "" ∧ logData ≠ "0x" then
          .ok (valueToNullable (depE el (hexToBytes logData)))
        else .ok none

/-! ## The interaction canonicalizer (serializer.js) -/

/-- The transaction-type enumeration (js-moi-utils `TxType`); `otherTx`
stands for any enumeration member outside the seven handled by the
serializer (the participant-derivation `default` branch). -/
inductive TxType where
  | assetCreate : TxType
  | assetMint : TxType
  | assetBurn : TxType
  | assetTransfer : TxType
  | logicDeploy : TxType
  | logicEnlist : TxType
  | logicInvoke : TxType
  | otherTx : TxType
deriving DecidableEq

/-- js-moi-utils `LockType`. -/
inductive LockType where
  | mutateLock : LockType
  | readLock : LockType
  | noLock : LockType
deriving DecidableEq

/-- A JS numeric amount: `num` is a `number` used as an integer, `big` a
`bigint` (the wide-integer representation). -/
inductive Amount where
  | num (n : Int) : Amount
  | big (n : Int) : Amount
deriving DecidableEq

def Amount.isBig : Amount → Bool
  | .big _ => true
  | _ => false

def Amount.toInt : Amount → Int
  | .num n => n
  | .big n => n

/-- The amount merge from `processFunds`: `BigInt(payload.amount) +
BigInt(amount)` when either side is a bigint, else `Number(payload.amount) +
Number(amount)`. -/
def addAmount (payloadAmt acc : Amount) : Amount :=
  if payloadAmt.isBig || acc.isBig then .big (payloadAmt.toInt + acc.toInt)
  else .num (payloadAmt.toInt + acc.toInt)

/-- The union of the per-type payload shapes read by the serializer
(`asset_id`/`amount` for asset supply and action payloads, `beneficiary` for
transfers, `logic_id` for logic payloads). -/
structure IxPayload where
  asset_id : String := ""
  amount : Amount := .num 0
  beneficiary : String := ""
  logic_id : String := ""
deriving DecidableEq

/-- A raw transaction: `payload = none` models an absent (`undefined`)
payload. -/
structure IxTransaction where
  txType : TxType
  payload : Option IxPayload
deriving DecidableEq

structure AssetFund where
  asset_id : String
  amount : Amount
deriving DecidableEq

structure IxParticipant where
  address : String
  lock_type : LockType
deriving DecidableEq

/-- A raw interaction request (caller-supplied). -/
structure InteractionObject where
  sender : String
  payer : Option String := none
  nonce : Nat := 0
  fuel_price : Nat := 0
  fuel_limit : Nat := 0
  funds : Option (List AssetFund) := none
  participants : Option (List IxParticipant) := none
  transactions : List IxTransaction := []

/-! ### Fund consolidation (`processFunds`) -/

/-- One step of the transaction scan in `processFunds` (`assetFunds` is the
JS `Map`, an insertion-ordered association list).  Note the source reads the
accumulator with the *unstripped* `payload.asset_id` but writes under the
stripped key.  An absent payload makes `payload.asset_id` a property read on
`undefined` (a JS `TypeError`). -/
def fundStep (m : List (String × Amount)) (tx : IxTransaction) :
    Except JsError (List (String × Amount)) :=
  match tx.txType with
  | .assetTransfer | .assetBurn =>
      match tx.payload with
      | none => .error (.typeError "Cannot read properties of undefined (reading asset_id)")
      | some p =>
          let amount := (lookupStr m p.asset_id).getD (.num 0)
          .ok (strMapSet m (trim0x p.asset_id) (addAmount p.amount amount))
  | _ => .ok m

/-- The transaction scan of `processFunds`. -/
def txFunds (txs : List IxTransaction) :
    Except JsError (List (String × Amount)) :=
  txs.foldlM fundStep []

/-- The supplied-funds merge of `processFunds`: append an entry only when its
stripped key is not yet present. -/
def mergeSupplied (m : List (String × Amount)) (supplied : List AssetFund) :
    List (String × Amount) :=
  addIfAbsent (fun f => trim0x f.asset_id) (fun f => f.amount) m supplied

/-- `processFunds(ixObject)`: consolidated `(asset_id, amount)` sequence. -/
def processFunds (ix : InteractionObject) :
    Except JsError (List (String × Amount)) := do
  let m ← txFunds ix.transactions
  pure (mergeSupplied m (ix.funds.getD []))

/-! ### Participant derivation (`processParticipants`) -/

/-- A processed participant (`{address, lock_type}` with raw address
bytes). -/
structure PEntry where
  address : List Nat
  lock_type : LockType
deriving DecidableEq

/-- The participants JS `Map`, keyed by address strings. -/
abbrev PMap := List (String × PEntry)

/-- The per-transaction participant derivation.  `ASSET_MINT`/`ASSET_BURN`
key by the asset id stripped of its 4-byte (8 hex character) discriminant,
`ASSET_TRANSFER` by the *verbatim* beneficiary string,
`LOGIC_ENLIST`/`LOGIC_INVOKE` by the logic id stripped of its 3-byte (6 hex
character) discriminant; unsupported types throw `InvalidArgument`.  An
absent payload makes the property read throw a JS `TypeError`. -/
def partStep (m : PMap) (tx : IxTransaction) : Except JsError PMap :=
  match tx.txType with
  | .assetCreate => .ok m
  | .assetMint | .assetBurn =>
      match tx.payload with
      | none => .error (.typeError "Cannot read properties of undefined (reading asset_id)")
      | some p =>
          let address := strDropChars (trim0x p.asset_id) 8
          .ok (strMapSet m address ⟨hexToBytes address, .mutateLock⟩)
  | .assetTransfer =>
      match tx.payload with
      | none => .error (.typeError "Cannot read properties of undefined (reading beneficiary)")
      | some p =>
          .ok (strMapSet m p.beneficiary ⟨hexToBytes p.beneficiary, .mutateLock⟩)
  | .logicDeploy => .ok m
  | .logicEnlist | .logicInvoke =>
      match tx.payload with
      | none => .error (.typeError "Cannot read properties of undefined (reading logic_id)")
      | some p =>
          let address := strDropChars (trim0x p.logic_id) 6
          .ok (strMapSet m address ⟨hexToBytes address, .mutateLock⟩)
  | .otherTx => .error (.invalidArgument "Unsupported Ix type")

/-- Sender and (optional) payer seed of the participants map. -/
def senderPayerSeed (ix : InteractionObject) : PMap :=
  let m0 := strMapSet [] (trim0x ix.sender) ⟨hexToBytes ix.sender, .mutateLock⟩
  match ix.payer with
  | some py => strMapSet m0 (trim0x py) ⟨hexToBytes py, .mutateLock⟩
  | none => m0

/-- Sender, payer and transaction-implied phases of `processParticipants`. -/
def txPartPhase (ix : InteractionObject) : Except JsError PMap :=
  ix.transactions.foldlM partStep (senderPayerSeed ix)

/-- The caller-supplied participants phase: an entry is added only when its
stripped address is not yet a key. -/
def suppliedPhase (m : PMap) (supplied : List IxParticipant) : PMap :=
  addIfAbsent (fun p => trim0x p.address)
    (fun p => ⟨hexToBytes p.address, p.lock_type⟩) m supplied

/-- `processParticipants(ixObject)`: the participant value sequence
(`Array.from(participants.values())`). -/
def processParticipants (ix : InteractionObject) :
    Except JsError (List PEntry) := do
  let m ← txPartPhase ix
  pure ((suppliedPhase m (ix.participants.getD [])).map Prod.snd)

/-! ### Transaction payload serialization (`processTransactions`) -/

/-- Modelled from the spec: js-moi-providers `serializePayload` — the Codec
Engine's payload schema for the transaction type applied to the payload
(§4.3.3); the byte framing is external, modelled as a tagged flattening. -/
def serializePayload (t : TxType) (p : IxPayload) : List Nat :=
  let tag : Nat :=
    match t with
    | .assetCreate => 0 | .assetMint => 1 | .assetBurn => 2
    | .assetTransfer => 3 | .logicDeploy => 4 | .logicEnlist => 5
    | .logicInvoke => 6 | .otherTx => 7
  tag :: (hexToBytes p.asset_id ++ [p.amount.toInt.natAbs] ++
    hexToBytes p.beneficiary ++ hexToBytes p.logic_id)

/-- A processed transaction: payload replaced by its serialized bytes. -/
structure ProcessedIxTransaction where
  txType : TxType
  payload : List Nat
deriving DecidableEq

/-- `processTransactions(transactions)`: `transactions.map(...)`, failing
with `MissingArgument` at the first absent payload. -/
def processTransactions : List IxTransaction →
    Except JsError (List ProcessedIxTransaction)
  | [] => .ok []
  | tx :: txs =>
      match tx.payload with
      | none => .error (.missingArgument "Payload is missing!")
      | some p =>
          match processTransactions txs with
          | .ok rest => .ok (⟨tx.txType, serializePayload tx.txType p⟩ :: rest)
          | .error e => .error e

/-! ### Assembly (`processIxObject`, `serializeIxObject`) -/

/-- The canonical, byte-ready Processed Interaction. -/
structure ProcessedIxObject where
  sender : List Nat
  payer : List Nat
  nonce : Nat
  fuel_price : Nat
  fuel_limit : Nat
  funds : List (String × Amount)
  transactions : List ProcessedIxTransaction
  participants : List PEntry

/-- `processIxObject(ixObject)`; the object-literal fields are evaluated in
source order (`funds`, then `transactions`, then `participants`), and any
failure is wrapped as `UNKNOWN_ERROR "Failed to process interaction object"`
with the original error attached.  Note the source sets `payer:
hexToBytes(ZERO_ADDRESS)` unconditionally. -/
def processIxObject (ix : InteractionObject) :
    Except JsError ProcessedIxObject :=
  match
    (do
      let funds ← processFunds ix
      let txs ← processTransactions ix.transactions
      let parts ← processParticipants ix
      pure { sender := hexToBytes ix.sender
             payer := hexToBytes ZERO_ADDRESS
             nonce := ix.nonce
             fuel_price := ix.fuel_price
             fuel_limit := ix.fuel_limit
             funds := funds
             transactions := txs
             participants := parts : ProcessedIxObject } :
      Except JsError ProcessedIxObject)
  with
  | .ok p => .ok p
  | .error e => .error (.unknownError "Failed to process interaction object" e)

/-- Modelled from the spec: the external primitive binary writer applied to
the fixed top-level interaction schema (§6, §4.3); the byte framing is out of
scope and modelled as a flat concatenation. -/
def ixWireBytes (p : ProcessedIxObject) : List Nat :=
  p.sender ++ p.payer ++ [p.nonce, p.fuel_price, p.fuel_limit] ++
    (p.funds.map (fun f => hexToBytes f.1 ++ [f.2.toInt.natAbs])).flatten ++
    (p.transactions.map ProcessedIxTransaction.payload).flatten ++
    (p.participants.map PEntry.address).flatten

/-- `serializeIxObject(ixObject)`: processes, POLO-encodes, and wraps any
failure as `UNKNOWN_ERROR "Failed to serialize interaction object"` with the
original error attached. -/
def serializeIxObject (ix : InteractionObject) : Except JsError (List Nat) :=
  match processIxObject ix with
  | .ok p => .ok (ixWireBytes p)
  | .error e => .error (.unknownError "Failed to serialize interaction object" e)

/-! ## Canonical values and schema-sharing safety (for the round-trip) -/

/-- No two list elements are equal as JS primitive keys. -/
def keysDistinctB : List Value → Bool
  | [] => true
  | k :: ks => ks.all (fun k2 => !(primValEq k k2)) && keysDistinctB ks

/-- Pairwise-distinct label list. -/
def strNodupB : List String → Bool
  | [] => true
  | l :: ls => ls.all (fun x => !(l == x)) && strNodupB ls

mutual
/-- A value consistent with a declared field type, in canonical form:
integers/booleans/strings/bytes as their own kinds, strings carrying no "0x"
format marker (§4.2: canonical string values never carry it), bytes as raw
byte sequences, arrays/maps elementwise canonical with distinct map keys (a
JS `Map` cannot hold two SameValueZero-equal keys), struct values whose
labels match the declared fields in declaration order (with distinct
labels). -/
def canonicalB : PoloSchema → Value → Bool
  | .integer, .vInt _ => true
  | .boolean, .vBool _ => true
  | .string, .vStr s => !(starts0x s)
  | .bytes, .vBytes _ => true
  | .array e, .vArr vs => canonArrB e vs
  | .map mk mv, .vMap es =>
      keysDistinctB (es.map Prod.fst) && canonEntriesB mk mv es
  | .struct fs, .vStruct fvs =>
      strNodupB (fs.map Prod.fst) && canonFieldsB fs fvs
  | _, _ => false

def canonArrB : PoloSchema → List Value → Bool
  | _, [] => true
  | e, v :: vs => canonicalB e v && canonArrB e vs

def canonEntriesB : PoloSchema → PoloSchema → List (Value × Value) → Bool
  | _, _, [] => true
  | mk, mv, p :: ps =>
      canonicalB mk p.1 && canonicalB mv p.2 && canonEntriesB mk mv ps

def canonFieldsB : List (String × PoloSchema) → List (String × Value) → Bool
  | [], [] => true
  | (l, s) :: fs, (l2, v) :: fvs =>
      (l == l2) && canonicalB s v && canonFieldsB fs fvs
  | _, _ => false
end

mutual
/-- Whether parsing a value under this schema node (with `updateType =
false`) can rewrite some schema node in place: an array or map whose element
position holds a struct rewrites it while processing the last element; struct
fields are parsed with `updateType = false` but can rewrite nodes below
themselves through a nested container. -/
def mutatesB : PoloSchema → Bool
  | .struct fs => mutFieldsB fs
  | .array e => parsableB e && (isStructB e || mutatesB e)
  | .map mk mv =>
      (parsableB mk || parsableB mv) &&
        (isStructB mk || isStructB mv || mutatesB mk || mutatesB mv)
  | _ => false

def mutFieldsB : List (String × PoloSchema) → Bool
  | [] => false
  | p :: ps => mutatesB p.2 || mutFieldsB ps
end

mutual
/-- Schema-sharing safety for the round-trip: no struct node sits beneath
two nested containers, so the struct→document rewrite can only fire after
the last use of the rewritten node within an encode call. -/
def safeB : PoloSchema → Bool
  | .struct fs => safeFieldsB fs
  | .array e => !(mutatesB e)
  | .map mk mv => !(mutatesB mk) && !(mutatesB mv)
  | _ => true

def safeFieldsB : List (String × PoloSchema) → Bool
  | [] => true
  | p :: ps => safeB p.2 && safeFieldsB ps
end

/-- An argument tuple consistent with a routine's declared field types: one
canonical value per declared field, in declaration order. -/
def canonArgsB : List (String × PoloSchema) → List Value → Bool
  | [], [] => true
  | f :: fs, a :: rest => canonicalB f.2 a && canonArgsB fs rest
  | _, _ => false

/-! ## Concrete inputs used by witnesses and counterexamples -/

/-- C1 counterexample routine: one field whose type nests a struct beneath
two containers (`array` of `array` of `struct{a: string}`). -/
def cexC1fields : List (String × PoloSchema) :=
  [("f", .array (.array (.struct [("a", .string)])))]

/-- C1 counterexample arguments: two outer elements, each a one-element
inner array of a struct. -/
def cexC1args : List Value :=
  [.vArr [.vArr [.vStruct [("a", .vStr "x")]], .vArr [.vStruct [("a", .vStr "y")]]]]

/-- C1 witness routine: a string field, a struct field and an
array-of-struct field (all schema-sharing safe). -/
def witC1fields : List (String × PoloSchema) :=
  [("a", .string), ("b", .struct [("x", .bytes)]),
   ("c", .array (.struct [("y", .integer)]))]

def witC1args : List Value :=
  [.vStr "moi", .vStruct [("x", .vBytes [1, 2])],
   .vArr [.vStruct [("y", .vInt 3)], .vStruct [("y", .vInt 4)]]]

/-- C2 failing input: two `ASSET_TRANSFER` transactions naming the same
prefixed asset id with amounts 1 and 2. -/
def cexC2ix : InteractionObject :=
  { sender := "0xaa",
    transactions :=
      [⟨.assetTransfer, some { asset_id := "0x01", amount := .num 1 }⟩,
       ⟨.assetTransfer, some { asset_id := "0x01", amount := .num 2 }⟩] }

/-- C3 counterexample: an `ASSET_TRANSFER` whose prefixed beneficiary is the
sender's own address. -/
def cexC3ix : InteractionObject :=
  { sender := "0xaa",
    transactions := [⟨.assetTransfer, some { beneficiary := "0xaa" }⟩] }

/-- C3 witness: the sender reappears in the supplied participants under a
different lock type. -/
def witC3ix : InteractionObject :=
  { sender := "0xaa", participants := some [⟨"0xaa", .readLock⟩] }

/-- C4 counterexample: a payer is supplied. -/
def cexC4ix : InteractionObject :=
  { sender := "0xaa", payer := some "0xbb" }

/-- C4 witness: no payer supplied. -/
def witC4ix : InteractionObject :=
  { sender := "0xcc" }

/-- C5 witness: the spec's fund-merge example — a transfer implying
`{assetA: 5}` with supplied funds `[{assetA: 3}, {assetB: 7}]`. -/
def witC5ix : InteractionObject :=
  { sender := "0xaa",
    transactions := [⟨.assetTransfer, some { asset_id := "0xa1", amount := .num 5 }⟩],
    funds := some [⟨"0xa1", .num 3⟩, ⟨"0xb1", .num 7⟩] }

/-- C6 counterexample: an `ASSET_TRANSFER` transaction with an absent
payload. -/
def cexC6ix : InteractionObject :=
  { sender := "0xaa", transactions := [⟨.assetTransfer, none⟩] }

/-- C6 witness: an `ASSET_CREATE` transaction with an absent payload. -/
def witC6ix : InteractionObject :=
  { sender := "0xaa", transactions := [⟨.assetCreate, none⟩] }

/-- C9 witness interaction. -/
def witC9ix : InteractionObject :=
  { sender := "0xab",
    transactions := [⟨.assetTransfer, some { beneficiary := "ab" }⟩],
    participants := some [⟨"0xab", .readLock⟩] }


/-! ## Association-map lemmas -/

theorem lookupStr_append {α : Type} (m1 m2 : List (String × α)) (k : String) :
    lookupStr (m1 ++ m2) k =
      match lookupStr m1 k with
      | some v => some v
      | none => lookupStr m2 k := by
  induction m1 with
  | nil => simp [lookupStr]
  | cons p ps ih =>
      by_cases h : p.1 = k <;> simp [lookupStr, h, ih]

theorem lookupStr_eq_none_iff {α : Type} (m : List (String × α)) (k : String) :
    lookupStr m k = none ↔ ∀ p ∈ m, p.1 ≠ k := by
  induction m with
  | nil => simp [lookupStr]
  | cons p ps ih =>
      by_cases h : p.1 = k <;> simp [lookupStr, h, ih]

theorem lookupStr_replaceAll {α : Type} (m : List (String × α)) (k k2 : String)
    (v : α) :
    lookupStr (m.map (fun e => if e.1 = k then (k, v) else e)) k2 =
      if k = k2 then (lookupStr m k).map (fun _ => v) else lookupStr m k2 := by
  induction m with
  | nil => by_cases h : k = k2 <;> simp [lookupStr, h]
  | cons p ps ih =>
      by_cases h1 : p.1 = k
      · by_cases h2 : k = k2
        · subst h2; simp [lookupStr, h1, ih]
        · simp [lookupStr, h1, h2, ih]
      · by_cases h2 : p.1 = k2
        · have hne : ¬ k = k2 := fun hw => h1 (hw ▸ h2)
          have hne2 : ¬ k2 = k := fun hw => hne hw.symm
          simp [lookupStr, h1, h2, hne, hne2]
        · simp [lookupStr, h1, h2, ih]

theorem lookupStr_strMapSet {α : Type} (m : List (String × α)) (k k2 : String)
    (v : α) :
    lookupStr (strMapSet m k v) k2 =
      if k = k2 then some v else lookupStr m k2 := by
  unfold strMapSet
  by_cases hs : (lookupStr m k).isSome
  · rw [if_pos hs, lookupStr_replaceAll]
    by_cases h2 : k = k2
    · obtain ⟨w, hw⟩ := Option.isSome_iff_exists.mp hs
      subst h2
      simp [hw]
    · simp [h2]
  · rw [if_neg hs, lookupStr_append]
    have hnone : lookupStr m k = none := Option.not_isSome_iff_eq_none.mp hs
    by_cases h2 : k = k2
    · subst h2; simp [hnone, lookupStr]
    · cases hl : lookupStr m k2 with
      | some w => simp [hl, h2]
      | none => simp [hl, lookupStr, h2]

theorem strMapSet_map_fst {α : Type} (m : List (String × α)) (k : String)
    (v : α) :
    (strMapSet m k v).map Prod.fst =
      if (lookupStr m k).isSome then m.map Prod.fst
      else m.map Prod.fst ++ [k] := by
  unfold strMapSet
  by_cases hs : (lookupStr m k).isSome
  · rw [if_pos hs, if_pos hs, List.map_map]
    apply List.map_congr_left
    intro p _
    by_cases h : p.1 = k <;> simp [h]
  · simp [hs]

theorem strMapSet_keys_nodup {α : Type} (m : List (String × α)) (k : String)
    (v : α) (h : (m.map Prod.fst).Nodup) :
    ((strMapSet m k v).map Prod.fst).Nodup := by
  rw [strMapSet_map_fst]
  by_cases hs : (lookupStr m k).isSome
  · simpa [hs] using h
  · have hnone : lookupStr m k = none := Option.not_isSome_iff_eq_none.mp hs
    have hnotmem : k ∉ m.map Prod.fst := by
      intro hmem
      obtain ⟨p, hp, hpk⟩ := List.mem_map.mp hmem
      exact ((lookupStr_eq_none_iff m k).mp hnone p hp) hpk
    simp only [hs, Bool.false_eq_true, if_false]
    rw [List.nodup_append]
    exact ⟨h, List.nodup_singleton k, by simpa using hnotmem⟩

theorem strMapSet_head? {α : Type} (m : List (String × α)) (k : String)
    (v : α) (hk : String) (he : α) (h : m.head? = some (hk, he)) :
    (strMapSet m k v).head? = some (hk, if hk = k then v else he) := by
  cases m with
  | nil => simp at h
  | cons p ps =>
      have hp : p = (hk, he) := by simpa using h
      subst hp
      unfold strMapSet
      by_cases hs : (lookupStr ((hk, he) :: ps) k).isSome
      · rw [if_pos hs]
        by_cases hhk : hk = k <;> simp [hhk]
      · rw [if_neg hs]
        have hnone := Option.not_isSome_iff_eq_none.mp hs
        have hne : hk ≠ k := by
          have := (lookupStr_eq_none_iff _ k).mp hnone (hk, he) (by simp)
          simpa using this
        simp [hne]

theorem addIfAbsent_cons {α β : Type} (key : β → String) (val : β → α)
    (m : List (String × α)) (x : β) (items : List β) :
    addIfAbsent key val m (x :: items) =
      addIfAbsent key val
        (if (lookupStr m (key x)).isSome then m else m ++ [(key x, val x)])
        items := rfl

theorem addIfAbsent_lookup_present {α β : Type} (key : β → String)
    (val : β → α) (m : List (String × α)) (items : List β) (k : String)
    (h : (lookupStr m k).isSome) :
    lookupStr (addIfAbsent key val m items) k = lookupStr m k := by
  induction items generalizing m with
  | nil => rfl
  | cons x xs ih =>
      rw [addIfAbsent_cons]
      by_cases hx : (lookupStr m (key x)).isSome
      · rw [if_pos hx]; exact ih m h
      · rw [if_neg hx]
        have hl : lookupStr (m ++ [(key x, val x)]) k = lookupStr m k := by
          rw [lookupStr_append]
          obtain ⟨w, hw⟩ := Option.isSome_iff_exists.mp h
          simp [hw]
        rw [ih _ (by rw [hl]; exact h), hl]

theorem addIfAbsent_head? {α β : Type} (key : β → String) (val : β → α)
    (m : List (String × α)) (items : List β) (p0 : String × α)
    (h : m.head? = some p0) :
    (addIfAbsent key val m items).head? = some p0 := by
  induction items generalizing m with
  | nil => exact h
  | cons x xs ih =>
      rw [addIfAbsent_cons]
      by_cases hx : (lookupStr m (key x)).isSome
      · rw [if_pos hx]; exact ih m h
      · rw [if_neg hx]
        refine ih _ ?_
        rw [List.head?_append]
        simp [h]

theorem addIfAbsent_keys_nodup {α β : Type} (key : β → String) (val : β → α)
    (m : List (String × α)) (items : List β)
    (h : (m.map Prod.fst).Nodup) :
    ((addIfAbsent key val m items).map Prod.fst).Nodup := by
  induction items generalizing m with
  | nil => exact h
  | cons x xs ih =>
      rw [addIfAbsent_cons]
      by_cases hx : (lookupStr m (key x)).isSome
      · rw [if_pos hx]; exact ih m h
      · rw [if_neg hx]
        refine ih _ ?_
        have hnone := Option.not_isSome_iff_eq_none.mp hx
        have hnotmem : key x ∉ m.map Prod.fst := by
          intro hmem
          obtain ⟨p, hp, hpk⟩ := List.mem_map.mp hmem
          exact ((lookupStr_eq_none_iff m (key x)).mp hnone p hp) hpk
        rw [List.map_append, List.nodup_append]
        exact ⟨h, by simp, by simpa using hnotmem⟩

theorem addIfAbsent_mem {α β : Type} (key : β → String) (val : β → α)
    (m : List (String × α)) (items : List β) (p : String × α)
    (h : p ∈ m) : p ∈ addIfAbsent key val m items := by
  induction items generalizing m with
  | nil => exact h
  | cons x xs ih =>
      rw [addIfAbsent_cons]
      by_cases hx : (lookupStr m (key x)).isSome
      · rw [if_pos hx]; exact ih m h
      · rw [if_neg hx]
        exact ih _ (List.mem_append_left _ h)

theorem addIfAbsent_mem_absent {α β : Type} (key : β → String) (val : β → α)
    (b : β) :
    ∀ items : List β, b ∈ items → (items.map key).Nodup →
      ∀ m : List (String × α), lookupStr m (key b) = none →
        (key b, val b) ∈ addIfAbsent key val m items := by
  intro items
  induction items with
  | nil => intro h; simp at h
  | cons x xs ih =>
      intro hb hnd m habs
      rw [addIfAbsent_cons]
      have hnds := List.nodup_cons.mp (by simpa using hnd : (key x :: xs.map key).Nodup)
      rcases List.mem_cons.mp hb with rfl | hbxs
      · rw [if_neg (by simp [habs])]
        exact addIfAbsent_mem _ _ _ _ _ (by simp)
      · have hkx : key x ≠ key b := by
          intro he
          exact hnds.1 (he ▸ List.mem_map_of_mem key hbxs)
        by_cases hx : (lookupStr m (key x)).isSome
        · rw [if_pos hx]; exact ih hbxs hnds.2 m habs
        · rw [if_neg hx]
          refine ih hbxs hnds.2 _ ?_
          rw [lookupStr_append, habs]
          simp [lookupStr, hkx]

/-! ## Hex-string lemmas -/

theorem trim0x_id (s : String) (h : starts0x s = false) : trim0x s = s := by
  simp [trim0x, h]

theorem hexToBytes_trim (s : String) : hexToBytes s = hexPairs (trim0x s).data := rfl

/-! ## Sender-entry invariant of the participant map (C9) -/

theorem strMapSet_head_hexwrite (m : PMap) (kw k : String)
    (hk : starts0x k = false)
    (hm : m.head? = some (k, ⟨hexPairs k.data, .mutateLock⟩)) :
    (strMapSet m kw (⟨hexToBytes kw, .mutateLock⟩ : PEntry)).head? =
      some (k, ⟨hexPairs k.data, .mutateLock⟩) := by
  rw [strMapSet_head? m kw _ k _ hm]
  by_cases hkk : k = kw
  · subst hkk
    simp [hexToBytes, trim0x_id _ hk]
  · simp [hkk]

theorem partStep_head (tx : IxTransaction) (m m2 : PMap) (k : String)
    (hk : starts0x k = false)
    (hm : m.head? = some (k, ⟨hexPairs k.data, .mutateLock⟩))
    (h : partStep m tx = .ok m2) :
    m2.head? = some (k, ⟨hexPairs k.data, .mutateLock⟩) := by
  obtain ⟨ty, pl⟩ := tx
  cases ty <;> cases pl <;> simp only [partStep] at h <;>
    (try cases h) <;>
    first
    | exact hm
    | exact strMapSet_head_hexwrite m _ k hk hm

theorem foldPart_head (txs : List IxTransaction) :
    ∀ m m2 : PMap, ∀ k : String, starts0x k = false →
      m.head? = some (k, ⟨hexPairs k.data, .mutateLock⟩) →
      List.foldlM partStep m txs = .ok m2 →
      m2.head? = some (k, ⟨hexPairs k.data, .mutateLock⟩) := by
  induction txs with
  | nil =>
      intro m m2 k _ hm h
      simp only [List.foldlM_nil] at h
      cases h
      exact hm
  | cons tx txs ih =>
      intro m m2 k hk hm h
      rw [List.foldlM_cons] at h
      cases hstep : partStep m tx with
      | error e =>
          rw [hstep] at h
          simp [Bind.bind, Except.bind] at h
      | ok m2' =>
          rw [hstep] at h
          simp only [Bind.bind, Except.bind] at h
          exact ih m2' m2 k hk (partStep_head tx m m2' k hk hm hstep) h

theorem senderPayerSeed_head (ix : InteractionObject) :
    (senderPayerSeed ix).head? =
      some (trim0x ix.sender,
        ⟨hexPairs (trim0x ix.sender).data, .mutateLock⟩) := by
  unfold senderPayerSeed
  have h0 : (strMapSet ([] : PMap) (trim0x ix.sender)
      (⟨hexToBytes ix.sender, .mutateLock⟩ : PEntry)).head? =
      some (trim0x ix.sender, ⟨hexPairs (trim0x ix.sender).data, .mutateLock⟩) := by
    simp [strMapSet, lookupStr, hexToBytes]
  cases hpy : ix.payer with
  | none => exact h0
  | some py =>
      rw [strMapSet_head? _ _ _ _ _ h0]
      by_cases hkk : trim0x ix.sender = trim0x py
      · rw [if_pos hkk, hexToBytes_trim py, ← hkk]
      · simp [hkk]

theorem txPartPhase_head (ix : InteractionObject) (m2 : PMap)
    (hk : starts0x (trim0x ix.sender) = false)
    (h : txPartPhase ix = .ok m2) :
    m2.head? = some (trim0x ix.sender,
      ⟨hexPairs (trim0x ix.sender).data, .mutateLock⟩) :=
  foldPart_head ix.transactions _ m2 _ hk (senderPayerSeed_head ix) h

/-! ## Key-set and lock invariants of the participant map (C3) -/

theorem partStep_nodup (tx : IxTransaction) (m m2 : PMap)
    (hnd : (m.map Prod.fst).Nodup) (h : partStep m tx = .ok m2) :
    (m2.map Prod.fst).Nodup := by
  obtain ⟨ty, pl⟩ := tx
  cases ty <;> cases pl <;> simp only [partStep] at h <;>
    (try cases h) <;>
    first
    | exact hnd
    | exact strMapSet_keys_nodup _ _ _ hnd

theorem foldPart_nodup (txs : List IxTransaction) :
    ∀ m m2 : PMap, (m.map Prod.fst).Nodup →
      List.foldlM partStep m txs = .ok m2 → (m2.map Prod.fst).Nodup := by
  induction txs with
  | nil =>
      intro m m2 hnd h
      simp only [List.foldlM_nil] at h
      cases h
      exact hnd
  | cons tx txs ih =>
      intro m m2 hnd h
      rw [List.foldlM_cons] at h
      cases hstep : partStep m tx with
      | error e => rw [hstep] at h; simp [Bind.bind, Except.bind] at h
      | ok m2' =>
          rw [hstep] at h
          simp only [Bind.bind, Except.bind] at h
          exact ih m2' m2 (partStep_nodup tx m m2' hnd hstep) h

theorem partStep_mutate (tx : IxTransaction) (m m2 : PMap) (k : String)
    (hmut : ∃ bs, lookupStr m k = some (⟨bs, .mutateLock⟩ : PEntry))
    (h : partStep m tx = .ok m2) :
    ∃ bs, lookupStr m2 k = some (⟨bs, .mutateLock⟩ : PEntry) := by
  obtain ⟨ty, pl⟩ := tx
  cases ty <;> cases pl <;> simp only [partStep] at h <;>
    (try cases h) <;>
    first
    | exact hmut
    | (rw [lookupStr_strMapSet]
       split
       · exact ⟨_, rfl⟩
       · exact hmut)

theorem foldPart_mutate (txs : List IxTransaction) :
    ∀ m m2 : PMap, ∀ k : String,
      (∃ bs, lookupStr m k = some (⟨bs, .mutateLock⟩ : PEntry)) →
      List.foldlM partStep m txs = .ok m2 →
      ∃ bs, lookupStr m2 k = some (⟨bs, .mutateLock⟩ : PEntry) := by
  induction txs with
  | nil =>
      intro m m2 k hmut h
      simp only [List.foldlM_nil] at h
      cases h
      exact hmut
  | cons tx txs ih =>
      intro m m2 k hmut h
      rw [List.foldlM_cons] at h
      cases hstep : partStep m tx with
      | error e => rw [hstep] at h; simp [Bind.bind, Except.bind] at h
      | ok m2' =>
          rw [hstep] at h
          simp only [Bind.bind, Except.bind] at h
          exact ih m2' m2 k (partStep_mutate tx m m2' k hmut hstep) h

theorem senderPayerSeed_nodup (ix : InteractionObject) :
    ((senderPayerSeed ix).map Prod.fst).Nodup := by
  unfold senderPayerSeed
  have h0 : ((strMapSet ([] : PMap) (trim0x ix.sender)
      (⟨hexToBytes ix.sender, .mutateLock⟩ : PEntry)).map Prod.fst).Nodup := by
    simp [strMapSet, lookupStr]
  cases ix.payer with
  | none => exact h0
  | some py => exact strMapSet_keys_nodup _ _ _ h0

theorem senderPayerSeed_mutate (ix : InteractionObject) :
    ∃ bs, lookupStr (senderPayerSeed ix) (trim0x ix.sender) =
      some (⟨bs, .mutateLock⟩ : PEntry) := by
  unfold senderPayerSeed
  have h0 : lookupStr (strMapSet ([] : PMap) (trim0x ix.sender)
      (⟨hexToBytes ix.sender, .mutateLock⟩ : PEntry)) (trim0x ix.sender) =
      some (⟨hexToBytes ix.sender, .mutateLock⟩ : PEntry) := by
    rw [lookupStr_strMapSet]; simp
  cases ix.payer with
  | none => exact ⟨_, h0⟩
  | some py =>
      rw [lookupStr_strMapSet]
      split
      · exact ⟨_, rfl⟩
      · exact ⟨_, h0⟩

/-- C9: for every interaction that derives its participants without error
(and whose sender address, once stripped, carries no further "0x" marker, as
any well-formed prefixed-hex address does), the first element of the derived
participant sequence is the sender's entry: the sender's address bytes with
lock type MUTATE_LOCK — no matter which transactions or caller-supplied
participants follow. -/
theorem processParticipants_sender_first (ix : InteractionObject)
    (ps : List PEntry)
    (hk : starts0x (trim0x ix.sender) = false)
    (h : processParticipants ix = .ok ps) :
    ps.head? = some ⟨hexToBytes ix.sender, .mutateLock⟩ := by
  unfold processParticipants at h
  cases hphase : txPartPhase ix with
  | error e => rw [hphase] at h; simp [Bind.bind, Except.bind] at h
  | ok m =>
      rw [hphase] at h
      simp only [Bind.bind, Except.bind, pure, Except.pure] at h
      cases h
      have hHead := txPartPhase_head ix m hk hphase
      unfold suppliedPhase
      rw [List.head?_map,
        addIfAbsent_head? (fun p => trim0x p.address)
          (fun p => (⟨hexToBytes p.address, p.lock_type⟩ : PEntry)) m
          (ix.participants.getD []) _ hHead]
      rfl

/-- C9 witness: a concrete interaction with a transfer back to the sender
and a supplied sender entry with a different lock type. -/
theorem processParticipants_sender_first_witness :
    processParticipants witC9ix = .ok [⟨[171], .mutateLock⟩] ∧
    ([(⟨[171], .mutateLock⟩ : PEntry)].head? =
      some ⟨hexToBytes witC9ix.sender, .mutateLock⟩) :=
  ⟨rfl, processParticipants_sender_first witC9ix _ (by decide) rfl⟩

/-- C3 counterexample: an `ASSET_TRANSFER` beneficiary equal to the sender's
address but written with the "0x" marker is keyed by its verbatim string, so
the derived sequence holds two entries with the same normalized address —
the claim's "at most one entry per such address" fails. -/
theorem processParticipants_dup_normalized :
    processParticipants cexC3ix =
      .ok [⟨[170], .mutateLock⟩, ⟨[170], .mutateLock⟩] ∧
    ¬ ([(⟨[170], .mutateLock⟩ : PEntry), ⟨[170], .mutateLock⟩].Pairwise
        (fun a b => a.address ≠ b.address)) :=
  ⟨rfl, by simp⟩

/-- C3 (amended): the participant map is keyed by the literal key string
used at each site (normalized for sender/payer/supplied entries, verbatim
for an `ASSET_TRANSFER` beneficiary), with at most one entry per key; the
first writer wins for the caller-supplied phase: a supplied participant
whose key is already present changes nothing, so the sender's entry keeps
MUTATE_LOCK even when the sender reappears in the supplied list with a
different lock type; later duplicate keys add no new entry. -/
theorem processParticipants_first_writer (ix : InteractionObject) (m2 : PMap)
    (h : txPartPhase ix = .ok m2) :
    ((suppliedPhase m2 (ix.participants.getD [])).map Prod.fst).Nodup
    ∧ (∀ k, (lookupStr m2 k).isSome →
        lookupStr (suppliedPhase m2 (ix.participants.getD [])) k =
          lookupStr m2 k)
    ∧ (∃ bs, lookupStr (suppliedPhase m2 (ix.participants.getD []))
        (trim0x ix.sender) = some (⟨bs, .mutateLock⟩ : PEntry))
    ∧ processParticipants ix =
        .ok ((suppliedPhase m2 (ix.participants.getD [])).map Prod.snd) := by
  have hnd : (m2.map Prod.fst).Nodup :=
    foldPart_nodup ix.transactions _ m2 (senderPayerSeed_nodup ix) h
  have hmut : ∃ bs, lookupStr m2 (trim0x ix.sender) =
      some (⟨bs, .mutateLock⟩ : PEntry) :=
    foldPart_mutate ix.transactions _ m2 _ (senderPayerSeed_mutate ix) h
  refine ⟨addIfAbsent_keys_nodup _ _ m2 _ hnd,
    fun k hks => addIfAbsent_lookup_present _ _ m2 _ k hks, ?_, ?_⟩
  · obtain ⟨bs, hbs⟩ := hmut
    refine ⟨bs, ?_⟩
    show lookupStr (addIfAbsent (fun p => trim0x p.address)
        (fun p => (⟨hexToBytes p.address, p.lock_type⟩ : PEntry)) m2
        (ix.participants.getD [])) (trim0x ix.sender) = _
    rw [addIfAbsent_lookup_present _ _ m2 _ _ (by simp [hbs])]
    exact hbs
  · unfold processParticipants
    rw [h]
    rfl

/-- C3 witness: the sender reappearing among the supplied participants with
READ_LOCK leaves the sender's MUTATE_LOCK entry untouched. -/
theorem processParticipants_first_writer_witness :
    ∃ bs, lookupStr
      (suppliedPhase [("aa", ⟨[170], .mutateLock⟩)] (witC3ix.participants.getD []))
      (trim0x witC3ix.sender) = some (⟨bs, .mutateLock⟩ : PEntry) :=
  (processParticipants_first_writer witC3ix [("aa", ⟨[170], .mutateLock⟩)] rfl).2.2.1

/-! ## Assembly lemmas (C4, C6) -/

theorem processIxObject_fields (ix : InteractionObject) (p : ProcessedIxObject)
    (h : processIxObject ix = .ok p) :
    p.payer = hexToBytes ZERO_ADDRESS ∧ p.sender = hexToBytes ix.sender := by
  unfold processIxObject at h
  cases hf : processFunds ix with
  | error e => rw [hf] at h; simp [Bind.bind, Except.bind] at h
  | ok funds =>
      rw [hf] at h
      cases ht : processTransactions ix.transactions with
      | error e => rw [ht] at h; simp [Bind.bind, Except.bind] at h
      | ok txs =>
          rw [ht] at h
          cases hp2 : processParticipants ix with
          | error e => rw [hp2] at h; simp [Bind.bind, Except.bind] at h
          | ok parts =>
              rw [hp2] at h
              simp only [Bind.bind, Except.bind, pure, Except.pure] at h
              cases h
              exact ⟨rfl, rfl⟩

theorem txFunds_ok (txs : List IxTransaction)
    (h : ∀ tx ∈ txs, (tx.txType = .assetTransfer ∨ tx.txType = .assetBurn) →
      tx.payload ≠ none) :
    ∃ m, txFunds txs = .ok m := by
  unfold txFunds
  suffices hgen : ∀ acc, ∃ m, List.foldlM fundStep acc txs = .ok m from hgen []
  induction txs with
  | nil => intro acc; exact ⟨acc, rfl⟩
  | cons tx txs ih =>
      intro acc
      have hstep : ∃ acc2, fundStep acc tx = .ok acc2 := by
        obtain ⟨ty, pl⟩ := tx
        cases ty <;> cases pl <;> simp only [fundStep] <;>
          first
          | exact ⟨acc, rfl⟩
          | exact ⟨_, rfl⟩
          | (exact (h _ (List.mem_cons_self _ _) (by simp) rfl).elim)
      obtain ⟨acc2, hacc2⟩ := hstep
      obtain ⟨m, hm⟩ := ih (fun tx2 htx2 => h tx2 (List.mem_cons_of_mem _ htx2)) acc2
      refine ⟨m, ?_⟩
      rw [List.foldlM_cons, hacc2]
      simpa [Bind.bind, Except.bind] using hm

theorem processTransactions_missing (txs : List IxTransaction)
    (h : ∃ tx ∈ txs, tx.payload = none) :
    processTransactions txs = .error (.missingArgument "Payload is missing!") := by
  induction txs with
  | nil => simp at h
  | cons tx txs ih =>
      unfold processTransactions
      cases hp : tx.payload with
      | none => rfl
      | some p =>
          have hrest : ∃ tx2 ∈ txs, tx2.payload = none := by
            obtain ⟨tx2, htx2, hp2⟩ := h
            rcases List.mem_cons.mp htx2 with rfl | hmem
            · exact absurd hp2 (by simp [hp])
            · exact ⟨tx2, hmem, hp2⟩
          rw [ih hrest]

/-- C4 counterexample: with payer `"0xbb"` supplied, the processed payer
field is the zero address's bytes, not the supplied address's bytes. -/
theorem processIxObject_payer_ignored :
    (processIxObject cexC4ix).map ProcessedIxObject.payer =
      .ok (hexToBytes ZERO_ADDRESS) ∧
    hexToBytes ZERO_ADDRESS ≠ hexToBytes "0xbb" :=
  ⟨rfl, by decide⟩

/-- C4 (amended): the Processed Interaction carries the sender as raw
address bytes, but its payer field is *always* the zero address's raw bytes
— the supplied payer is never copied into it (it only enters the participant
derivation). -/
theorem processIxObject_payer_zero (ix : InteractionObject)
    (p : ProcessedIxObject) (h : processIxObject ix = .ok p) :
    p.payer = hexToBytes ZERO_ADDRESS ∧ p.sender = hexToBytes ix.sender :=
  processIxObject_fields ix p h

/-- C4 witness. -/
theorem processIxObject_payer_zero_witness :
    ∃ p, processIxObject witC4ix = .ok p ∧
      p.payer = hexToBytes ZERO_ADDRESS ∧ p.sender = hexToBytes witC4ix.sender :=
  ⟨_, rfl, processIxObject_payer_zero witC4ix _ rfl⟩

/-- C6 counterexample: an `ASSET_TRANSFER` transaction with an absent
payload makes fund consolidation dereference `undefined` first, so the
stable wrapper carries a `TypeError` cause and no `MissingArgument` appears
anywhere in the error chain. -/
theorem serializeIxObject_transfer_missing :
    serializeIxObject cexC6ix =
      .error (.unknownError "Failed to serialize interaction object"
        (.unknownError "Failed to process interaction object"
          (.typeError "Cannot read properties of undefined (reading asset_id)"))) ∧
    mentionsMissingArgument
      (.unknownError "Failed to serialize interaction object"
        (.unknownError "Failed to process interaction object"
          (.typeError "Cannot read properties of undefined (reading asset_id)"))) = false :=
  ⟨rfl, rfl⟩

/-- C6 (amended): for every interaction whose `ASSET_TRANSFER`/`ASSET_BURN`
transactions all have payloads but that contains some transaction with an
absent payload, serialization fails all-or-nothing with the stable wrapping
error carrying the original `MissingArgument` cause; when a transfer or burn
transaction's payload is absent, serialization still fails all-or-nothing
with the same wrapper, but the wrapped cause is the fund-consolidation type
error rather than `MissingArgument`. -/
theorem serializeIxObject_missing_payload (ix : InteractionObject)
    (hfb : ∀ tx ∈ ix.transactions,
      (tx.txType = .assetTransfer ∨ tx.txType = .assetBurn) → tx.payload ≠ none)
    (hmiss : ∃ tx ∈ ix.transactions, tx.payload = none) :
    serializeIxObject ix =
      .error (.unknownError "Failed to serialize interaction object"
        (.unknownError "Failed to process interaction object"
          (.missingArgument "Payload is missing!"))) := by
  obtain ⟨m, hm⟩ := txFunds_ok ix.transactions hfb
  have hpf : processFunds ix = .ok (mergeSupplied m (ix.funds.getD [])) := by
    unfold processFunds
    rw [hm]
    rfl
  have hpt := processTransactions_missing ix.transactions hmiss
  unfold serializeIxObject processIxObject
  rw [hpf]
  simp [Bind.bind, Except.bind, hpt]

/-- C6 witness: an `ASSET_CREATE` transaction with an absent payload. -/
theorem serializeIxObject_missing_payload_witness :
    serializeIxObject witC6ix =
      .error (.unknownError "Failed to serialize interaction object"
        (.unknownError "Failed to process interaction object"
          (.missingArgument "Payload is missing!"))) :=
  serializeIxObject_missing_payload witC6ix (by decide) (by decide)

/-- C2: evaluation at the failing input.  Two `ASSET_TRANSFER` transactions
both naming asset id `"0x01"` with amounts 1 and 2 consolidate to a single
entry of amount 2, not 3: the accumulator read uses the unstripped
`payload.asset_id` key while the write uses the stripped key, so the read
always misses for prefixed asset ids and the previous amount is lost. -/
theorem processFunds_read_key_mismatch :
    processFunds cexC2ix = .ok [("01", .num 2)] ∧
    (Amount.num 2 : Amount) ≠ .num (1 + 2) :=
  ⟨rfl, by decide⟩

/-- C5: for every interaction whose transaction scan succeeds, an asset id
present in the caller-supplied funds but absent from the transaction-implied
accumulator is appended with its supplied amount, while an asset id already
implied by some transaction keeps the transaction-implied amount (the
supplied amount is ignored). -/
theorem processFunds_merge (ix : InteractionObject)
    (base : List (String × Amount))
    (h : txFunds ix.transactions = .ok base)
    (hnd : ((ix.funds.getD []).map (fun f => trim0x f.asset_id)).Nodup) :
    processFunds ix = .ok (mergeSupplied base (ix.funds.getD []))
    ∧ (∀ k, (lookupStr base k).isSome →
        lookupStr (mergeSupplied base (ix.funds.getD [])) k = lookupStr base k)
    ∧ (∀ f ∈ ix.funds.getD [], lookupStr base (trim0x f.asset_id) = none →
        (trim0x f.asset_id, f.amount) ∈ mergeSupplied base (ix.funds.getD [])) := by
  refine ⟨?_, ?_, ?_⟩
  · unfold processFunds
    rw [h]
    rfl
  · intro k hk
    exact addIfAbsent_lookup_present _ _ base _ k hk
  · intro f hf habs
    exact addIfAbsent_mem_absent (fun f => trim0x f.asset_id)
      (fun f => f.amount) f _ hf hnd base habs

/-- C5 witness: the spec's example — a transfer implying `{a1: 5}` with
supplied funds `[{a1: 3}, {b1: 7}]` yields `[(a1, 5), (b1, 7)]`. -/
theorem processFunds_merge_witness :
    processFunds witC5ix = .ok [("a1", .num 5), ("b1", .num 7)] ∧
    lookupStr (mergeSupplied [("a1", Amount.num 5)] (witC5ix.funds.getD [])) "a1" =
      some (.num 5) ∧
    (trim0x "0xb1", Amount.num 7) ∈
      mergeSupplied [("a1", Amount.num 5)] (witC5ix.funds.getD []) := by
  have h := processFunds_merge witC5ix [("a1", .num 5)] rfl (by decide)
  refine ⟨by rw [h.1]; rfl, ?_, ?_⟩
  · rw [h.2.1 "a1" (by decide)]
    rfl
  · exact h.2.2 ⟨"0xb1", .num 7⟩ (by decide) (by decide)

/-- C10: calling `decodeArguments` with a routine whose `accepts` member is
absent throws (the `fields && fields.length === 0` guard is skipped and the
final projection dereferences `null`), whereas a routine with a present but
empty `accepts` list returns `null`. -/
theorem decodeArguments_null_accepts (w : CalldataWire) :
    decodeArguments none w =
      .error (.typeError "Cannot read properties of null (reading map)")
    ∧ decodeArguments (some []) w = .ok none :=
  ⟨rfl, rfl⟩

/-- C8 counterexample: the reserved `"builtin.Log"` branch decodes the log
data unconditionally, so with empty log data the call returns whatever the
external reader produces for empty input rather than null. -/
theorem decodeEventOutput_builtin_empty :
    decodeEventOutput (fun _ => .vInt 7) (fun _ _ => .vNull) [] "builtin.Log" ""
      = .ok (some (.vInt 7)) ∧
    (Except.ok (some (Value.vInt 7)) : Except JsError (Option Value)) ≠ .ok none :=
  ⟨rfl, by simp⟩

/-- C8 (amended): for every event name other than `"builtin.Log"` that is
present in the manifest, empty log data (the empty string or "0x") yields
null, for every behavior of the external reader; the `"builtin.Log"` branch
does not special-case empty log data and returns the reader's output for the
empty byte sequence. -/
theorem decodeEventOutput_manifest_empty (depB : List Nat → Value)
    (depE : List (String × PoloSchema) → List Nat → Value)
    (events : List (String × List (String × PoloSchema)))
    (name : String) (el : List (String × PoloSchema))
    (hne : name ≠ "builtin.Log") (hel : lookupStr events name = some el) :
    decodeEventOutput depB depE events name "" = .ok none
    ∧ decodeEventOutput depB depE events name "0x" = .ok none
    ∧ decodeEventOutput depB depE events "builtin.Log" "" =
        .ok (valueToNullable (depB (hexToBytes ""))) := by
  unfold decodeEventOutput
  rw [if_neg hne, if_neg hne, hel]
  exact ⟨by simp, by simp, by simp⟩

/-- C8 witness. -/
theorem decodeEventOutput_manifest_empty_witness :
    decodeEventOutput (fun _ => .vNull) (fun _ _ => .vNull)
      [("Transfer", [])] "Transfer" "" = .ok none :=
  (decodeEventOutput_manifest_empty (fun _ => .vNull) (fun _ _ => .vNull)
    [("Transfer", [])] "Transfer" [] (by decide) rfl).1

/-! ## Schema-mutation lemmas (C7) -/

theorem setField_map_fst {α : Type} (ps : List (String × α)) (l : String)
    (a : α) : (setField ps l a).map Prod.fst = ps.map Prod.fst := by
  unfold setField
  rw [List.map_map]
  apply List.map_congr_left
  intro p _
  by_cases h : p.1 = l <;> simp [h]

theorem parseFieldsStF_map_fst :
    ∀ (n : Nat) (fs : List (String × PoloSchema)) (fvs : List (String × Value)),
      ((parseFieldsStF n fs fvs).2).map Prod.fst = fs.map Prod.fst := by
  intro n
  induction n with
  | zero => intro fs fvs; rfl
  | succ n ih =>
      intro fs fvs
      cases fvs with
      | nil => rfl
      | cons fv rest =>
          obtain ⟨l, av⟩ := fv
          cases hl : lookupStr fs l with
          | some s0 =>
              simp only [parseFieldsStF, hl]
              rw [ih, setField_map_fst]
          | none =>
              simp only [parseFieldsStF, hl]
              exact ih fs rest

theorem parseCalldataF_document (n : Nat) (w : Value) (u : Bool) :
    parseCalldataF n .document w u = (w, .document) := by
  cases n <;> rfl

/-- C7: parsing a value under a struct-kind schema node with `updateType =
true` (a top-level field, or the last element of an array or map) rewrites
that node to `document` with its fields removed; with `updateType = false`
the node keeps its struct kind and its field labels (only a deep copy is
rewritten for the sub-document encoding); and any later use of the rewritten
`document` node passes the value through as an opaque pre-encoded blob and
leaves the node unchanged. -/
theorem parseCalldata_struct_memoization (fs : List (String × PoloSchema))
    (v : Value) :
    (parseCalldata (.struct fs) v true).2 = .document
    ∧ (∃ fs2, (parseCalldata (.struct fs) v false).2 = .struct fs2
        ∧ fs2.map Prod.fst = fs.map Prod.fst)
    ∧ (∀ w u, parseCalldata .document w u = (w, .document)) := by
  obtain ⟨n, hn⟩ : ∃ n, schSize (.struct fs) + valSize v = n + 1 :=
    ⟨schSizeF fs + valSize v, by simp [schSize]; omega⟩
  have hw : ∀ u, parseCalldata (.struct fs) v u =
      parseCalldataF (n + 1) (.struct fs) v u := by
    intro u
    unfold parseCalldata
    rw [hn]
  refine ⟨?_, ?_, fun w u => parseCalldataF_document _ w u⟩
  · rw [hw]
    cases v <;> rfl
  · rw [hw]
    cases v <;>
      first
      | exact ⟨fs, rfl, rfl⟩
      | exact ⟨(parseFieldsStF n fs _).2, rfl, parseFieldsStF_map_fst n fs _⟩

/-! ## Small lemmas for the round-trip (C1) -/

theorem schSize_pos (s : PoloSchema) : 1 ≤ schSize s := by
  cases s <;> simp [schSize]

theorem valSize_pos (v : Value) : 1 ≤ valSize v := by
  cases v <;> simp [valSize]

theorem lookupStr_setField_ne {α : Type} (ps : List (String × α)) (l l2 : String)
    (a : α) (h : l ≠ l2) : lookupStr (setField ps l a) l2 = lookupStr ps l2 := by
  unfold setField
  rw [lookupStr_replaceAll]
  simp [h]

theorem setField_of_absent {α : Type} (ps : List (String × α)) (l : String)
    (a : α) (h : ∀ q ∈ ps, q.1 ≠ l) : setField ps l a = ps := by
  unfold setField
  rw [show ps.map (fun p => if p.1 = l then (l, a) else p) = ps.map id from
    List.map_congr_left (fun q hq => by simp [h q hq]), List.map_id]

theorem strNodupB_cons (l : String) (ls : List String)
    (h : strNodupB (l :: ls) = true) :
    (∀ x ∈ ls, l ≠ x) ∧ strNodupB ls = true := by
  simp only [strNodupB, Bool.and_eq_true, List.all_eq_true] at h
  exact ⟨fun x hx => by simpa using h.1 x hx, h.2⟩

theorem setField_self {α : Type} (ps : List (String × α)) (l : String) (a : α)
    (hnd : strNodupB (ps.map Prod.fst) = true)
    (h : lookupStr ps l = some a) : setField ps l a = ps := by
  induction ps with
  | nil => rfl
  | cons p ps ih =>
      have hnds := strNodupB_cons p.1 (ps.map Prod.fst) (by simpa using hnd)
      by_cases hp : p.1 = l
      · have ha : p.2 = a := by
          simp only [lookupStr, hp, if_true] at h
          exact Option.some.inj h
        have htail : setField ps l a = ps := by
          apply setField_of_absent
          intro q hq he
          exact hnds.1 q.1 (List.mem_map_of_mem Prod.fst hq) (hp.trans he.symm)
        unfold setField at htail ⊢
        simp only [List.map_cons, hp, if_true, htail]
        rw [← hp, ← ha]
      · have h2 : lookupStr ps l = some a := by
          simpa [lookupStr, hp] using h
        unfold setField at ih ⊢
        simp only [List.map_cons, hp, if_false, ih hnds.2 h2]

theorem canonFields_labels :
    ∀ (fs : List (String × PoloSchema)) (fvs : List (String × Value)),
      canonFieldsB fs fvs = true → fs.map Prod.fst = fvs.map Prod.fst := by
  intro fs
  induction fs with
  | nil => intro fvs h; cases fvs with
      | nil => rfl
      | cons fv fvs => simp [canonFieldsB] at h
  | cons f fs ih =>
      intro fvs h
      obtain ⟨l, s⟩ := f
      cases fvs with
      | nil => simp [canonFieldsB] at h
      | cons fv fvs =>
          obtain ⟨l2, v⟩ := fv
          simp only [canonFieldsB, Bool.and_eq_true, beq_iff_eq] at h
          simp [h.1.1, ih fvs h.2]

theorem notParsable_notM (s : PoloSchema) (h : parsableB s = false) :
    mutatesB s = false := by
  cases s <;> simp_all [parsableB, mutatesB]

theorem M_safe_all : ∀ n : Nat,
    (∀ s, schSize s ≤ n → mutatesB s = false → safeB s = true) ∧
    (∀ fs, schSizeF fs ≤ n → mutFieldsB fs = false → safeFieldsB fs = true) := by
  intro n
  induction n with
  | zero =>
      constructor
      · intro s hs
        exact absurd hs (by have := schSize_pos s; omega)
      · intro fs hs hm
        cases fs with
        | nil => rfl
        | cons f fs =>
            exfalso
            have := schSize_pos f.2
            simp [schSizeF] at hs
  | succ n ih =>
      constructor
      · intro s hs hm
        cases s with
        | array e =>
            simp only [mutatesB, Bool.and_eq_true] at hm
            simp only [safeB, Bool.not_eq_true']
            by_cases hp : parsableB e = true
            · have := (Bool.and_eq_false_iff.mp hm)
              rcases this with h1 | h2
              · exact absurd hp (by simp [h1])
              · exact (Bool.or_eq_false_iff.mp h2).2
            · exact notParsable_notM e (by simpa using hp)
        | map mk mv =>
            simp only [safeB, Bool.not_eq_true', Bool.and_eq_true]
            rcases Bool.and_eq_false_iff.mp hm with h1 | h2
            · rcases Bool.or_eq_false_iff.mp h1 with ⟨hk, hv⟩
              exact ⟨notParsable_notM mk hk, notParsable_notM mv hv⟩
            · have h3 := Bool.or_eq_false_iff.mp h2
              have h4 := Bool.or_eq_false_iff.mp h3.1
              have h5 := Bool.or_eq_false_iff.mp h4.1
              exact ⟨by simpa using h4.2, by simpa using h3.2⟩
        | struct fs =>
            have hsz : schSizeF fs ≤ n := by
              simp only [schSize] at hs
              omega
            exact ih.2 fs hsz (by simpa [mutatesB] using hm)
        | integer => rfl
        | boolean => rfl
        | string => rfl
        | bytes => rfl
        | document => rfl
      · intro fs hs hm
        cases fs with
        | nil => rfl
        | cons f fs =>
            simp only [schSizeF] at hs
            rcases Bool.or_eq_false_iff.mp (by simpa [mutFieldsB] using hm) with ⟨h1, h2⟩
            simp only [safeFieldsB, Bool.and_eq_true]
            exact ⟨ih.1 f.2 (by omega) h1, ih.2 fs (by omega) h2⟩

theorem M_safe (s : PoloSchema) (h : mutatesB s = false) : safeB s = true :=
  (M_safe_all (schSize s)).1 s le_rfl h

theorem mutFields_safe (fs : List (String × PoloSchema))
    (h : mutFieldsB fs = false) : safeFieldsB fs = true :=
  (M_safe_all (schSizeF fs)).2 fs le_rfl h

theorem primValEq_nonprim_left (x a : Value) (h : isPrimValB x = false) :
    primValEq x a = false := by
  cases x <;> first
    | (cases a <;> rfl)
    | simp [isPrimValB] at h

theorem primValEq_nonprim_right (x a : Value) (h : isPrimValB x = false) :
    primValEq a x = false := by
  cases x <;> first
    | (cases a <;> rfl)
    | simp [isPrimValB] at h

theorem primShadow_left (v w a : Value) (h : primShadow v w) :
    primValEq w a = primValEq v a := by
  by_cases hp : isPrimValB v = true
  · rw [h.1 hp]
  · rw [primValEq_nonprim_left w a (h.2 (by simpa using hp)),
      primValEq_nonprim_left v a (by simpa using hp)]

theorem primShadow_right (v w a : Value) (h : primShadow v w) :
    primValEq a w = primValEq a v := by
  by_cases hp : isPrimValB v = true
  · rw [h.1 hp]
  · rw [primValEq_nonprim_right w a (h.2 (by simpa using hp)),
      primValEq_nonprim_right v a (by simpa using hp)]

theorem dep_prim (m : Nat) (s : PoloSchema) (v : Value)
    (hp : parsableB s = false) (hc : canonicalB s v = true)
    (hb : schSize s + valSize v ≤ m) : depolorizeFieldF m s v = some v := by
  obtain ⟨m2, rfl⟩ : ∃ m2, m = m2 + 1 :=
    ⟨m - 1, by have := schSize_pos s; have := valSize_pos v; omega⟩
  cases s <;> simp [parsableB] at hp <;> cases v <;>
    first
    | rfl
    | (simp [canonicalB] at hc)

theorem dep_prim_vals :
    ∀ (vs : List Value) (m : Nat) (e : PoloSchema),
      parsableB e = false → canonArrB e vs = true →
      schSize e + valSizeL vs < m → depValsF m e vs = some vs := by
  intro vs
  induction vs with
  | nil =>
      intro m e hp hc hb
      obtain ⟨m2, rfl⟩ : ∃ m2, m = m2 + 1 := ⟨m - 1, by omega⟩
      rfl
  | cons v vs ih =>
      intro m e hp hc hb
      obtain ⟨m2, rfl⟩ : ∃ m2, m = m2 + 1 := ⟨m - 1, by omega⟩
      simp only [canonArrB, Bool.and_eq_true] at hc
      have hu : valSizeL (v :: vs) = valSize v + valSizeL vs + 1 := rfl
      simp only [depValsF, dep_prim m2 e v hp hc.1 (by omega),
        ih m2 e hp hc.2 (by omega), Option.map]

theorem dep_prim_entries :
    ∀ (es : List (Value × Value)) (m : Nat) (mk mv : PoloSchema),
      parsableB mk = false → parsableB mv = false →
      canonEntriesB mk mv es = true →
      schSize mk + schSize mv + valSizeP es < m →
      depEntriesF m mk mv es = some es := by
  intro es
  induction es with
  | nil =>
      intro m mk mv hpk hpv hc hb
      obtain ⟨m2, rfl⟩ : ∃ m2, m = m2 + 1 := ⟨m - 1, by omega⟩
      rfl
  | cons e es ih =>
      intro m mk mv hpk hpv hc hb
      obtain ⟨m2, rfl⟩ : ∃ m2, m = m2 + 1 := ⟨m - 1, by omega⟩
      simp only [canonEntriesB, Bool.and_eq_true] at hc
      have hu : valSizeP (e :: es) = valSize e.1 + valSize e.2 + valSizeP es + 1 := rfl
      simp only [depEntriesF, dep_prim m2 mk e.1 hpk hc.1.1 (by omega),
        dep_prim m2 mv e.2 hpv hc.1.2 (by omega),
        ih m2 mk mv hpk hpv hc.2 (by omega), Option.map]

theorem depFieldsF_skip :
    ∀ (m : Nat) (fs : List (String × PoloSchema)) (l : String) (w : Value)
      (d : List (String × Value)), (∀ p ∈ fs, p.1 ≠ l) →
      depFieldsF m fs ((l, w) :: d) = depFieldsF m fs d := by
  intro m
  induction m with
  | zero => intro fs l w d hnot; rfl
  | succ m ih =>
      intro fs l w d hnot
      cases fs with
      | nil => rfl
      | cons f fs2 =>
          obtain ⟨l2, s⟩ := f
          have hne : ¬ l = l2 := fun he =>
            hnot (l2, s) (List.mem_cons_self _ _) (by simp [he])
          cases hwv : lookupStr d l2 with
          | none => simp only [depFieldsF, lookupStr, hne, if_false, hwv]
          | some wv =>
              cases hdv : depolorizeFieldF m s wv with
              | none => simp only [depFieldsF, lookupStr, hne, if_false, hwv, hdv]
              | some v =>
                  simp only [depFieldsF, lookupStr, hne, if_false, hwv, hdv]
                  rw [ih fs2 l w d (fun p hp => hnot p (List.mem_cons_of_mem _ hp))]

theorem depolorizeDocGo_skip :
    ∀ (fs : List (String × PoloSchema)) (l : String) (w : Value)
      (d : List (String × Value)), (∀ p ∈ fs, p.1 ≠ l) →
      depolorizeDocGo fs ((l, w) :: d) = depolorizeDocGo fs d := by
  intro fs
  induction fs with
  | nil => intro l w d hnot; rfl
  | cons f fs2 ih =>
      intro l w d hnot
      obtain ⟨l2, s⟩ := f
      have hne : ¬ l = l2 := fun he =>
        hnot (l2, s) (List.mem_cons_self _ _) (by simp [he])
      cases hwv : lookupStr d l2 with
      | none => simp only [depolorizeDocGo, lookupStr, hne, if_false, hwv]
      | some wv =>
          cases hdv : depolorizeField s wv with
          | none => simp only [depolorizeDocGo, lookupStr, hne, if_false, hwv, hdv]
          | some v =>
              simp only [depolorizeDocGo, lookupStr, hne, if_false, hwv, hdv]
              rw [ih l w d (fun p hp => hnot p (List.mem_cons_of_mem _ hp))]

theorem primShadow_refl (v : Value) : primShadow v v :=
  ⟨fun _ => rfl, fun h => h⟩

theorem primShadow_nonprim (v w : Value) (hv : isPrimValB v = false)
    (hw : isPrimValB w = false) : primShadow v w :=
  ⟨fun h => absurd h (by simp [hv]), fun _ => hw⟩

theorem jsMapSet_append (acc : List (Value × Value)) (k v : Value)
    (h : ∀ p ∈ acc, primValEq p.1 k = false) :
    jsMapSet acc k v = acc ++ [(k, v)] := by
  unfold jsMapSet
  have hcond : (acc.any (fun e => primValEq e.1 k)) = false := by
    rw [List.any_eq_false]
    intro p hp
    simp [h p hp]
  rw [hcond]
  simp

theorem keysDistinctB_cons (k : Value) (ks : List Value)
    (h : keysDistinctB (k :: ks) = true) :
    (∀ k2 ∈ ks, primValEq k k2 = false) ∧ keysDistinctB ks = true := by
  simp only [keysDistinctB, Bool.and_eq_true, List.all_eq_true] at h
  exact ⟨fun k2 hk2 => by simpa using h.1 k2 hk2, h.2⟩

/-- The round-trip workhorse: under schema-sharing safety (`safeB`) and
canonical values, parsing produces a value that the external reader decodes
back to the original; under `mutatesB = false` the schema node is left
unchanged (except the flagged struct → document rewrite). -/
theorem roundTripAux : ∀ n : Nat,
    (∀ s v u, safeB s = true → canonicalB s v = true →
      schSize s + valSize v ≤ n →
      (∀ m, schSize s + valSize (parseCalldataF n s v u).1 ≤ m →
        depolorizeFieldF m s (parseCalldataF n s v u).1 = some v)
      ∧ primShadow v (parseCalldataF n s v u).1)
    ∧
    (∀ s v u, mutatesB s = false → canonicalB s v = true →
      schSize s + valSize v ≤ n →
      (parseCalldataF n s v u).2 = if u && isStructB s then .document else s)
    ∧
    (∀ e vs, mutatesB e = false → canonArrB e vs = true →
      schSize e + valSizeL vs ≤ n →
      (∀ m, schSize e + valSizeL ((parseElemsF n e vs).1) < m →
        depValsF m e (parseElemsF n e vs).1 = some vs)
      ∧ (isStructB e = false → (parseElemsF n e vs).2 = e))
    ∧
    (∀ mk mv acc es, mutatesB mk = false → mutatesB mv = false →
      canonEntriesB mk mv es = true →
      keysDistinctB (es.map Prod.fst) = true →
      (∀ p ∈ acc, ∀ q ∈ es, primValEq p.1 q.1 = false) →
      schSize mk + schSize mv + valSizeP es ≤ n →
      ∃ pp, (parseEntriesF n mk mv acc es).1 = acc ++ pp
        ∧ (∀ m, schSize mk + schSize mv + valSizeP pp < m →
            depEntriesF m mk mv pp = some es)
        ∧ (isStructB mk = false → isStructB mv = false →
            (parseEntriesF n mk mv acc es).2 = (mk, mv)))
    ∧
    (∀ fsCur fsSuf fvs, safeFieldsB fsSuf = true →
      strNodupB (fsSuf.map Prod.fst) = true →
      strNodupB (fsCur.map Prod.fst) = true →
      canonFieldsB fsSuf fvs = true →
      (∀ l, l ∈ fvs.map Prod.fst → lookupStr fsCur l = lookupStr fsSuf l) →
      schSizeF fsSuf + valSizeF fvs ≤ n →
      ((parseFieldsStF n fsCur fvs).1).map Prod.fst = fvs.map Prod.fst
      ∧ (∀ m, schSizeF fsSuf + valSizeF ((parseFieldsStF n fsCur fvs).1) < m →
          depFieldsF m fsSuf (parseFieldsStF n fsCur fvs).1 = some fvs)
      ∧ (mutFieldsB fsSuf = false →
          (parseFieldsStF n fsCur fvs).2 = fsCur)) := by
  intro n
  induction n with
  | zero =>
      refine ⟨?_, ?_, ?_, ?_, ?_⟩
      · intro s v u _ _ hb
        exact absurd hb (by have := schSize_pos s; have := valSize_pos v; omega)
      · intro s v u _ _ hb
        exact absurd hb (by have := schSize_pos s; have := valSize_pos v; omega)
      · intro e vs _ _ hb
        exact absurd hb (by have := schSize_pos e; omega)
      · intro mk mv acc es _ _ _ _ _ hb
        exact absurd hb (by have := schSize_pos mk; have := schSize_pos mv; omega)
      · intro fsCur fsSuf fvs hsafe hnds hndc hcf hlook hb
        have hsz : schSizeF fsSuf = 0 ∧ valSizeF fvs = 0 := by omega
        have hfs : fsSuf = [] := by
          cases fsSuf with
          | nil => rfl
          | cons f fs =>
              exfalso
              have h1 := schSize_pos f.2
              have h2 : schSize f.2 + schSizeF fs + 1 = 0 := hsz.1
              omega
        have hfv : fvs = [] := by
          cases fvs with
          | nil => rfl
          | cons f fs =>
              exfalso
              have h1 := valSize_pos f.2
              have h2 : valSize f.2 + valSizeF fs + 1 = 0 := hsz.2
              omega
        subst hfs; subst hfv
        refine ⟨rfl, ?_, fun _ => rfl⟩
        intro m hm
        obtain ⟨m2, rfl⟩ : ∃ m2, m = m2 + 1 := ⟨m - 1, by omega⟩
        rfl
  | succ n ih =>
      obtain ⟨ihS, ihM, ihE, ihP, ihF⟩ := ih
      refine ⟨?_, ?_, ?_, ?_, ?_⟩
      -- Qsafe: parsed value decodes back; primitive identity is tracked
      · intro s v u hsafe hc hb
        cases s with
        | integer =>
            cases v <;> simp only [canonicalB, Bool.false_eq_true] at hc
            case vInt i =>
            have hw : (parseCalldataF (n + 1) .integer (.vInt i) u).1 = .vInt i := rfl
            rw [hw]
            refine ⟨?_, primShadow_refl _⟩
            intro m hm
            exact dep_prim m .integer _ rfl rfl (by simpa [schSize] using hm)
        | boolean =>
            cases v <;> simp only [canonicalB, Bool.false_eq_true] at hc
            case vBool b =>
            have hw : (parseCalldataF (n + 1) .boolean (.vBool b) u).1 = .vBool b := rfl
            rw [hw]
            refine ⟨?_, primShadow_refl _⟩
            intro m hm
            exact dep_prim m .boolean _ rfl rfl (by simpa [schSize] using hm)
        | string =>
            cases v <;> simp only [canonicalB, Bool.false_eq_true] at hc
            case vStr str =>
            have htr : trim0x str = str := trim0x_id str (by simpa using hc)
            have hw : (parseCalldataF (n + 1) .string (.vStr str) u).1 = .vStr str := by
              show Value.vStr (trim0x str) = Value.vStr str
              rw [htr]
            rw [hw]
            refine ⟨?_, primShadow_refl _⟩
            intro m hm
            exact dep_prim m .string _ rfl (by simp [canonicalB, hc]) (by simpa [schSize] using hm)
        | bytes =>
            cases v <;> simp only [canonicalB, Bool.false_eq_true] at hc
            case vBytes bs =>
            have hw : (parseCalldataF (n + 1) .bytes (.vBytes bs) u).1 = .vBytes bs := rfl
            rw [hw]
            refine ⟨?_, primShadow_refl _⟩
            intro m hm
            obtain ⟨m2, rfl⟩ : ∃ m2, m = m2 + 1 :=
              ⟨m - 1, by simp only [schSize, valSize] at hm; omega⟩
            rfl
        | document => cases v <;> simp only [canonicalB, Bool.false_eq_true] at hc
        | array e =>
            cases v <;> simp only [canonicalB, Bool.false_eq_true] at hc
            case vArr vs =>
            simp only [safeB, Bool.not_eq_true'] at hsafe
            have hMe : mutatesB e = false := hsafe
            by_cases hp : parsableB e = true
            · have hre := ihE e vs hMe hc
                (by simp only [schSize, valSize] at hb; omega)
              have hw : (parseCalldataF (n + 1) (.array e) (.vArr vs) u).1 =
                  .vArr (parseElemsF n e vs).1 := by
                simp [parseCalldataF, hp]
              rw [hw]
              refine ⟨?_, primShadow_nonprim _ _ rfl rfl⟩
              intro m hm
              obtain ⟨m2, rfl⟩ : ∃ m2, m = m2 + 1 :=
                ⟨m - 1, by have := schSize_pos e; simp only [valSize] at hm; omega⟩
              have : depValsF m2 e (parseElemsF n e vs).1 = some vs := by
                apply hre.1
                simp only [schSize, valSize] at hm
                omega
              simp [depolorizeFieldF, this]
            · have hw : (parseCalldataF (n + 1) (.array e) (.vArr vs) u).1 =
                  .vArr vs := by
                simp [parseCalldataF, hp]
              rw [hw]
              refine ⟨?_, primShadow_nonprim _ _ rfl rfl⟩
              intro m hm
              obtain ⟨m2, rfl⟩ : ∃ m2, m = m2 + 1 :=
                ⟨m - 1, by have := schSize_pos e; simp only [valSize] at hm; omega⟩
              have : depValsF m2 e vs = some vs := by
                apply dep_prim_vals vs m2 e (by simpa using hp) hc
                simp only [schSize, valSize] at hm
                omega
              simp [depolorizeFieldF, this]
        | map mk mv =>
            cases v <;> simp only [canonicalB, Bool.and_eq_true, Bool.false_eq_true] at hc
            case vMap es =>
            simp only [safeB, Bool.not_eq_true', Bool.and_eq_true] at hsafe
            by_cases hp : (parsableB mk || parsableB mv) = true
            · obtain ⟨pp, hpp1, hpp2, _⟩ := ihP mk mv [] es hsafe.1 hsafe.2
                hc.2 hc.1 (by intro p hp2; simp at hp2)
                (by simp only [schSize, valSize] at hb; omega)
              have hw : (parseCalldataF (n + 1) (.map mk mv) (.vMap es) u).1 =
                  .vMap (parseEntriesF n mk mv [] es).1 := by
                simp [parseCalldataF, hp]
              rw [hw, hpp1]
              refine ⟨?_, primShadow_nonprim _ _ rfl rfl⟩
              intro m hm
              obtain ⟨m2, rfl⟩ : ∃ m2, m = m2 + 1 :=
                ⟨m - 1, by have := schSize_pos mk; simp only [valSize] at hm; omega⟩
              have : depEntriesF m2 mk mv pp = some es := by
                apply hpp2
                simp only [schSize, valSize, List.nil_append] at hm
                omega
              simp [depolorizeFieldF, this]
            · have hw : (parseCalldataF (n + 1) (.map mk mv) (.vMap es) u).1 =
                  .vMap es := by
                simp [parseCalldataF, hp]
              rw [hw]
              refine ⟨?_, primShadow_nonprim _ _ rfl rfl⟩
              intro m hm
              obtain ⟨m2, rfl⟩ : ∃ m2, m = m2 + 1 :=
                ⟨m - 1, by have := schSize_pos mk; simp only [valSize] at hm; omega⟩
              simp only [Bool.or_eq_true, not_or, Bool.not_eq_true] at hp
              have : depEntriesF m2 mk mv es = some es := by
                apply dep_prim_entries es m2 mk mv hp.1 hp.2 hc.2
                simp only [schSize, valSize] at hm
                omega
              simp [depolorizeFieldF, this]
        | struct fs =>
            cases v <;> simp only [canonicalB, Bool.and_eq_true, Bool.false_eq_true] at hc
            case vStruct fvs =>
            simp only [safeB] at hsafe
            have hre := ihF fs fs fvs hsafe hc.1 hc.1 hc.2
              (fun l _ => rfl)
              (by simp only [schSize, valSize] at hb; omega)
            have hw : (parseCalldataF (n + 1) (.struct fs) (.vStruct fvs) u).1 =
                .vDoc (parseFieldsStF n fs fvs).1 := by
              cases u <;> rfl
            rw [hw]
            refine ⟨?_, primShadow_nonprim _ _ rfl rfl⟩
            intro m hm
            obtain ⟨m2, rfl⟩ : ∃ m2, m = m2 + 1 :=
              ⟨m - 1, by simp only [schSize, valSize] at hm; omega⟩
            have : depFieldsF m2 fs (parseFieldsStF n fs fvs).1 = some fvs := by
              apply hre.2.1
              simp only [schSize, valSize] at hm
              omega
            simp [depolorizeFieldF, this]
      -- Qm: the schema state after the call
      · intro s v u hM hc hb
        cases s with
        | integer => cases u <;> rfl
        | boolean => cases u <;> rfl
        | string => cases v <;> cases u <;> rfl
        | bytes => cases v <;> cases u <;> rfl
        | document => cases u <;> rfl
        | array e =>
            cases v <;> simp only [canonicalB, Bool.false_eq_true] at hc
            case vArr vs =>
            simp only [mutatesB, Bool.and_eq_true] at hM
            by_cases hp : parsableB e = true
            · have hse : isStructB e = false ∧ mutatesB e = false := by
                rcases Bool.and_eq_false_iff.mp hM with h1 | h2
                · exact absurd hp (by simp [h1])
                · exact ⟨(Bool.or_eq_false_iff.mp h2).1, (Bool.or_eq_false_iff.mp h2).2⟩
              have hre := ihE e vs hse.2 hc
                (by simp only [schSize, valSize] at hb; omega)
              have : (parseCalldataF (n + 1) (.array e) (.vArr vs) u).2 =
                  .array (parseElemsF n e vs).2 := by
                simp [parseCalldataF, hp]
              rw [this, hre.2 hse.1]
              cases u <;> rfl
            · have : (parseCalldataF (n + 1) (.array e) (.vArr vs) u).2 =
                  .array e := by
                simp [parseCalldataF, hp]
              rw [this]
              cases u <;> rfl
        | map mk mv =>
            cases v <;> simp only [canonicalB, Bool.and_eq_true, Bool.false_eq_true] at hc
            case vMap es =>
            by_cases hp : (parsableB mk || parsableB mv) = true
            · have hse : isStructB mk = false ∧ isStructB mv = false ∧
                  mutatesB mk = false ∧ mutatesB mv = false := by
                rcases Bool.and_eq_false_iff.mp hM with h1 | h2
                · exact absurd hp (by simp [h1])
                · have h3 := Bool.or_eq_false_iff.mp h2
                  have h4 := Bool.or_eq_false_iff.mp h3.1
                  have h5 := Bool.or_eq_false_iff.mp h4.1
                  exact ⟨h5.1, h5.2, h4.2, h3.2⟩
              obtain ⟨pp, hpp1, hpp2, hpp3⟩ := ihP mk mv [] es hse.2.2.1 hse.2.2.2
                hc.2 hc.1 (by intro p hp2; simp at hp2)
                (by simp only [schSize, valSize] at hb; omega)
              have : (parseCalldataF (n + 1) (.map mk mv) (.vMap es) u).2 =
                  .map (parseEntriesF n mk mv [] es).2.1
                    (parseEntriesF n mk mv [] es).2.2 := by
                simp [parseCalldataF, hp]
              rw [this]
              have h22 := hpp3 hse.1 hse.2.1
              rw [show (parseEntriesF n mk mv [] es).2.1 = mk from by rw [h22],
                show (parseEntriesF n mk mv [] es).2.2 = mv from by rw [h22]]
              cases u <;> rfl
            · have : (parseCalldataF (n + 1) (.map mk mv) (.vMap es) u).2 =
                  .map mk mv := by
                simp [parseCalldataF, hp]
              rw [this]
              cases u <;> rfl
        | struct fs =>
            cases v <;> simp only [canonicalB, Bool.and_eq_true, Bool.false_eq_true] at hc
            case vStruct fvs =>
            have hMf : mutFieldsB fs = false := by simpa [mutatesB] using hM
            have hre := ihF fs fs fvs (mutFields_safe fs hMf) hc.1 hc.1 hc.2
              (fun l _ => rfl)
              (by simp only [schSize, valSize] at hb; omega)
            cases u with
            | true => rfl
            | false =>
                have : (parseCalldataF (n + 1) (.struct fs) (.vStruct fvs) false).2 =
                    .struct (parseFieldsStF n fs fvs).2 := rfl
                rw [this, hre.2.2 hMf]
                rfl
      -- Qelems
      · intro e vs hM hc hb
        cases vs with
        | nil =>
            refine ⟨?_, fun _ => rfl⟩
            intro m hm
            obtain ⟨m2, rfl⟩ : ∃ m2, m = m2 + 1 := ⟨m - 1, by omega⟩
            rfl
        | cons v vs2 =>
            simp only [canonArrB, Bool.and_eq_true] at hc
            have hsafe := M_safe e hM
            cases vs2 with
            | nil =>
                have hS := ihS e v true hsafe hc.1
                  (by simp only [valSizeL] at hb; omega)
                have hMr := ihM e v true hM hc.1
                  (by simp only [valSizeL] at hb; omega)
                constructor
                · intro m hm
                  obtain ⟨m2, rfl⟩ : ∃ m2, m = m2 + 1 :=
                    ⟨m - 1, by have := schSize_pos e; omega⟩
                  simp only [parseElemsF] at hm ⊢
                  have hd : depolorizeFieldF m2 e
                      (parseCalldataF n e v true).1 = some v := by
                    apply hS.1
                    simp only [valSizeL] at hm
                    omega
                  have hnil : depValsF m2 e [] = some [] := by
                    obtain ⟨m3, rfl⟩ : ∃ m3, m2 = m3 + 1 :=
                      ⟨m2 - 1, by have := schSize_pos e; simp only [valSizeL] at hm; omega⟩
                    rfl
                  simp [depValsF, hd, hnil]
                · intro hse
                  simp only [parseElemsF, hMr, hse]
                  simp
            | cons v2 rest =>
                have hS := ihS e v false hsafe hc.1
                  (by simp only [valSizeL] at hb; omega)
                have hMr := ihM e v false hM hc.1
                  (by simp only [valSizeL] at hb; omega)
                have hsch : (parseCalldataF n e v false).2 = e := by
                  simpa using hMr
                have hrec := ihE e (v2 :: rest) hM hc.2
                  (by simp only [valSizeL] at hb ⊢; omega)
                constructor
                · intro m hm
                  obtain ⟨m2, rfl⟩ : ∃ m2, m = m2 + 1 :=
                    ⟨m - 1, by have := schSize_pos e; omega⟩
                  simp only [parseElemsF, hsch] at hm ⊢
                  have hd : depolorizeFieldF m2 e
                      (parseCalldataF n e v false).1 = some v := by
                    apply hS.1
                    simp only [valSizeL] at hm
                    omega
                  have hrest : depValsF m2 e
                      (parseElemsF n e (v2 :: rest)).1 = some (v2 :: rest) := by
                    apply hrec.1
                    simp only [valSizeL] at hm
                    omega
                  simp [depValsF, hd, hrest]
                · intro hse
                  simp only [parseElemsF, hsch]
                  exact hrec.2 hse
      -- Qentries
      · intro mk mv acc es hMk hMv hc hdist hacc hb
        cases es with
        | nil =>
            refine ⟨[], by simp [parseEntriesF], ?_, fun _ _ => rfl⟩
            intro m hm
            obtain ⟨m2, rfl⟩ : ∃ m2, m = m2 + 1 := ⟨m - 1, by omega⟩
            rfl
        | cons e es2 =>
            simp only [canonEntriesB, Bool.and_eq_true] at hc
            have hdists := keysDistinctB_cons e.1 (es2.map Prod.fst)
              (by simpa using hdist)
            have hsafeK := M_safe mk hMk
            have hsafeV := M_safe mv hMv
            cases es2 with
            | nil =>
                have hSk := ihS mk e.1 true hsafeK hc.1.1
                  (by simp only [valSizeP] at hb; omega)
                have hSv := ihS mv e.2 true hsafeV hc.1.2
                  (by simp only [valSizeP] at hb; omega)
                have hMrk := ihM mk e.1 true hMk hc.1.1
                  (by simp only [valSizeP] at hb; omega)
                have hMrv := ihM mv e.2 true hMv hc.1.2
                  (by simp only [valSizeP] at hb; omega)
                have happ : jsMapSet acc (parseCalldataF n mk e.1 true).1
                    (parseCalldataF n mv e.2 true).1 =
                    acc ++ [((parseCalldataF n mk e.1 true).1,
                      (parseCalldataF n mv e.2 true).1)] := by
                  apply jsMapSet_append
                  intro p hp
                  rw [primShadow_right e.1 _ p.1 hSk.2]
                  exact hacc p hp e (List.mem_cons_self _ _)
                refine ⟨[((parseCalldataF n mk e.1 true).1,
                  (parseCalldataF n mv e.2 true).1)], ?_, ?_, ?_⟩
                · simp only [parseEntriesF, happ]
                · intro m hm
                  obtain ⟨m2, rfl⟩ : ∃ m2, m = m2 + 1 := ⟨m - 1, by omega⟩
                  have hdk : depolorizeFieldF m2 mk
                      (parseCalldataF n mk e.1 true).1 = some e.1 := by
                    apply hSk.1
                    simp only [valSizeP] at hm
                    omega
                  have hdv : depolorizeFieldF m2 mv
                      (parseCalldataF n mv e.2 true).1 = some e.2 := by
                    apply hSv.1
                    simp only [valSizeP] at hm
                    omega
                  have hnil : depEntriesF m2 mk mv [] = some [] := by
                    obtain ⟨m3, rfl⟩ : ∃ m3, m2 = m3 + 1 :=
                      ⟨m2 - 1, by have := schSize_pos mk; simp only [valSizeP] at hm; omega⟩
                    rfl
                  simp [depEntriesF, hdk, hdv, hnil]
                · intro hk hv
                  simp only [parseEntriesF]
                  have h1 : (parseCalldataF n mk e.1 true).2 = mk := by
                    simpa [hk] using hMrk
                  have h2 : (parseCalldataF n mv e.2 true).2 = mv := by
                    simpa [hv] using hMrv
                  rw [h1, h2]
            | cons e2 rest =>
                have hSk := ihS mk e.1 false hsafeK hc.1.1
                  (by simp only [valSizeP] at hb; omega)
                have hSv := ihS mv e.2 false hsafeV hc.1.2
                  (by simp only [valSizeP] at hb; omega)
                have hMrk := ihM mk e.1 false hMk hc.1.1
                  (by simp only [valSizeP] at hb; omega)
                have hMrv := ihM mv e.2 false hMv hc.1.2
                  (by simp only [valSizeP] at hb; omega)
                have hschk : (parseCalldataF n mk e.1 false).2 = mk := by
                  simpa using hMrk
                have hschv : (parseCalldataF n mv e.2 false).2 = mv := by
                  simpa using hMrv
                have happ : jsMapSet acc (parseCalldataF n mk e.1 false).1
                    (parseCalldataF n mv e.2 false).1 =
                    acc ++ [((parseCalldataF n mk e.1 false).1,
                      (parseCalldataF n mv e.2 false).1)] := by
                  apply jsMapSet_append
                  intro p hp
                  rw [primShadow_right e.1 _ p.1 hSk.2]
                  exact hacc p hp e (List.mem_cons_self _ _)
                have hacc2 : ∀ p ∈ acc ++ [((parseCalldataF n mk e.1 false).1,
                    (parseCalldataF n mv e.2 false).1)],
                    ∀ q ∈ e2 :: rest, primValEq p.1 q.1 = false := by
                  intro p hp q hq
                  rcases List.mem_append.mp hp with hpl | hpr
                  · exact hacc p hpl q (List.mem_cons_of_mem _ hq)
                  · have hpe : p = ((parseCalldataF n mk e.1 false).1,
                        (parseCalldataF n mv e.2 false).1) := by simpa using hpr
                    rw [hpe]
                    rw [primShadow_left e.1 _ q.1 hSk.2]
                    exact hdists.1 q.1 (List.mem_map_of_mem Prod.fst hq)
                obtain ⟨pp, hpp1, hpp2, hpp3⟩ := ihP mk mv
                  (acc ++ [((parseCalldataF n mk e.1 false).1,
                    (parseCalldataF n mv e.2 false).1)]) (e2 :: rest)
                  hMk hMv hc.2 hdists.2 hacc2
                  (by simp only [valSizeP] at hb ⊢; omega)
                refine ⟨((parseCalldataF n mk e.1 false).1,
                  (parseCalldataF n mv e.2 false).1) :: pp, ?_, ?_, ?_⟩
                · have : (parseEntriesF (n + 1) mk mv acc (e :: e2 :: rest)).1 =
                      (parseEntriesF n mk mv (jsMapSet acc
                        (parseCalldataF n mk e.1 false).1
                        (parseCalldataF n mv e.2 false).1) (e2 :: rest)).1 := by
                    simp only [parseEntriesF, hschk, hschv]
                  rw [this, happ, hpp1, List.append_assoc]
                  rfl
                · intro m hm
                  obtain ⟨m2, rfl⟩ : ∃ m2, m = m2 + 1 := ⟨m - 1, by omega⟩
                  have hdk : depolorizeFieldF m2 mk
                      (parseCalldataF n mk e.1 false).1 = some e.1 := by
                    apply hSk.1
                    simp only [valSizeP] at hm
                    omega
                  have hdv : depolorizeFieldF m2 mv
                      (parseCalldataF n mv e.2 false).1 = some e.2 := by
                    apply hSv.1
                    simp only [valSizeP] at hm
                    omega
                  have hrest : depEntriesF m2 mk mv pp = some (e2 :: rest) := by
                    apply hpp2
                    simp only [valSizeP] at hm
                    omega
                  simp [depEntriesF, hdk, hdv, hrest]
                · intro hk hv
                  have : (parseEntriesF (n + 1) mk mv acc (e :: e2 :: rest)).2 =
                      (parseEntriesF n mk mv (jsMapSet acc
                        (parseCalldataF n mk e.1 false).1
                        (parseCalldataF n mv e.2 false).1) (e2 :: rest)).2 := by
                    simp only [parseEntriesF, hschk, hschv]
                  rw [this, happ]
                  exact hpp3 hk hv
      -- Qfields
      · intro fsCur fsSuf fvs hsafe hnds hndc hcf hlook hb
        cases fvs with
        | nil =>
            cases fsSuf with
            | cons f fs2 => simp [canonFieldsB] at hcf
            | nil =>
                refine ⟨rfl, ?_, fun _ => rfl⟩
                intro m hm
                obtain ⟨m2, rfl⟩ : ∃ m2, m = m2 + 1 := ⟨m - 1, by omega⟩
                rfl
        | cons fv rest =>
            obtain ⟨l, av⟩ := fv
            cases fsSuf with
            | nil => simp [canonFieldsB] at hcf
            | cons f0 fsSufR =>
                obtain ⟨l2, s0⟩ := f0
                simp only [canonFieldsB, Bool.and_eq_true, beq_iff_eq] at hcf
                obtain ⟨⟨hl2, hcav⟩, hcrest⟩ := hcf
                have hl2s : l = l2 := hl2.symm
                subst hl2s
                have hndSs := strNodupB_cons l (fsSufR.map Prod.fst)
                  (by simpa using hnds)
                have hlabels : fsSufR.map Prod.fst = rest.map Prod.fst :=
                  canonFields_labels fsSufR rest hcrest
                have hlookhead : lookupStr fsCur l = some s0 := by
                  rw [hlook l (by simp)]
                  simp [lookupStr]
                have hsafes : safeB s0 = true ∧ safeFieldsB fsSufR = true := by
                  simpa only [safeFieldsB, Bool.and_eq_true] using hsafe
                have hS := ihS s0 av false hsafes.1 hcav
                  (by simp only [schSizeF, valSizeF] at hb; omega)
                have hres : parseFieldsStF (n + 1) fsCur ((l, av) :: rest) =
                    ((l, (parseCalldataF n s0 av false).1) ::
                      (parseFieldsStF n (setField fsCur l
                        (parseCalldataF n s0 av false).2) rest).1,
                      (parseFieldsStF n (setField fsCur l
                        (parseCalldataF n s0 av false).2) rest).2) := by
                  simp only [parseFieldsStF, hlookhead]
                have hlnotinR : ∀ l3 ∈ fsSufR.map Prod.fst, l ≠ l3 :=
                  hndSs.1
                have hlook2 : ∀ l3, l3 ∈ rest.map Prod.fst →
                    lookupStr (setField fsCur l
                      (parseCalldataF n s0 av false).2) l3 =
                    lookupStr fsSufR l3 := by
                  intro l3 hl3
                  have hne := hlnotinR l3 (hlabels ▸ hl3)
                  rw [lookupStr_setField_ne _ _ _ _ hne]
                  rw [hlook l3 (by simp [hl3])]
                  simp [lookupStr, hne]
                have hrec := ihF (setField fsCur l
                    (parseCalldataF n s0 av false).2) fsSufR rest
                  hsafes.2 hndSs.2
                  (by rw [setField_map_fst]; exact hndc)
                  hcrest hlook2
                  (by simp only [schSizeF, valSizeF] at hb ⊢; omega)
                refine ⟨?_, ?_, ?_⟩
                · rw [hres]
                  simp only [List.map_cons]
                  rw [hrec.1]
                · intro m hm
                  rw [hres] at hm ⊢
                  obtain ⟨m2, rfl⟩ : ∃ m2, m = m2 + 1 := ⟨m - 1, by omega⟩
                  have hdk : depolorizeFieldF m2 s0
                      (parseCalldataF n s0 av false).1 = some av := by
                    apply hS.1
                    simp only [schSizeF, valSizeF] at hm
                    omega
                  have hskip : depFieldsF m2 fsSufR
                      ((l, (parseCalldataF n s0 av false).1) ::
                        (parseFieldsStF n (setField fsCur l
                          (parseCalldataF n s0 av false).2) rest).1) =
                      depFieldsF m2 fsSufR
                        (parseFieldsStF n (setField fsCur l
                          (parseCalldataF n s0 av false).2) rest).1 := by
                    apply depFieldsF_skip
                    intro p hp
                    intro he
                    exact hlnotinR p.1 (List.mem_map_of_mem Prod.fst hp) he.symm
                  have hrest : depFieldsF m2 fsSufR
                      (parseFieldsStF n (setField fsCur l
                        (parseCalldataF n s0 av false).2) rest).1 = some rest := by
                    apply hrec.2.1
                    simp only [schSizeF, valSizeF] at hm
                    omega
                  simp [depFieldsF, lookupStr, hdk, hskip, hrest]
                · intro hMf
                  have hMfs := Bool.or_eq_false_iff.mp
                    (by simpa [mutFieldsB] using hMf)
                  have hsch : (parseCalldataF n s0 av false).2 = s0 := by
                    have := ihM s0 av false hMfs.1 hcav
                      (by simp only [schSizeF, valSizeF] at hb; omega)
                    simpa using this
                  have hset : setField fsCur l (parseCalldataF n s0 av false).2
                      = fsCur := by
                    rw [hsch]
                    exact setField_self fsCur l s0 hndc hlookhead
                  have hr := hrec.2.2 hMfs.2
                  rw [hset] at hr
                  rw [hres, hset]
                  exact hr

theorem encodeFieldsGo_decode :
    ∀ (fields : List (String × PoloSchema)) (args : List Value),
      fields.all (fun f => safeB f.2) = true →
      strNodupB (fields.map Prod.fst) = true →
      canonArgsB fields args = true →
      ∃ dec, depolorizeDocGo fields (encodeFieldsGo fields args) = some dec
        ∧ dec.map Prod.snd = args := by
  intro fields
  induction fields with
  | nil =>
      intro args _ _ hcanon
      cases args with
      | nil => exact ⟨[], rfl, rfl⟩
      | cons a rest => simp [canonArgsB] at hcanon
  | cons f fs ih =>
      intro args hsafe hnd hcanon
      obtain ⟨l, s⟩ := f
      cases args with
      | nil => simp [canonArgsB] at hcanon
      | cons a rest =>
          simp only [canonArgsB, Bool.and_eq_true] at hcanon
          simp only [List.all_cons, Bool.and_eq_true] at hsafe
          have hnds := strNodupB_cons l (fs.map Prod.fst) (by simpa using hnd)
          have hrt := (roundTripAux (schSize s + valSize a)).1 s a true
            hsafe.1 hcanon.1 (le_refl _)
          have hdep : depolorizeField s (parseCalldata s a true).1 = some a := by
            unfold depolorizeField parseCalldata
            exact hrt.1 _ (le_refl _)
          obtain ⟨dec2, h1, h2⟩ := ih rest hsafe.2 hnds.2 hcanon.2
          have hskip : depolorizeDocGo fs
              ((l, (parseCalldata s a true).1) :: encodeFieldsGo fs rest) =
              depolorizeDocGo fs (encodeFieldsGo fs rest) :=
            depolorizeDocGo_skip fs l _ _
              (fun p hp => (hnds.1 p.1 (List.mem_map_of_mem Prod.fst hp)).symm)
          refine ⟨(l, a) :: dec2, ?_, by simp [h2]⟩
          show depolorizeDocGo ((l, s) :: fs)
            ((l, (parseCalldata s a true).1) :: encodeFieldsGo fs rest) =
            some ((l, a) :: dec2)
          simp [depolorizeDocGo, lookupStr, hdep, hskip, h1]

/-- C1 counterexample: for the routine whose single field's type nests a
struct beneath two containers (array of array of struct) and a consistent
two-element argument, encode-then-decode fails with a wire error instead of
returning the arguments: while the first outer element is encoded, the
shared struct schema node is rewritten in place to `document`, so the second
outer element's struct value is passed through raw and the decoder cannot
read it back. -/
theorem decodeArguments_round_trip_cex :
    decodeArguments (some cexC1fields) (encodeArguments cexC1fields cexC1args)
      = .error (.wireError "insufficient data in wire") ∧
    (Except.error (JsError.wireError "insufficient data in wire")
      : Except JsError (Option (List Value))) ≠ .ok (some cexC1args) :=
  ⟨rfl, fun h => Except.noConfusion h⟩

/-- C1 (amended): for every routine with a non-empty `accepts` list whose
field labels are distinct and whose declared field types are
schema-sharing safe (no struct type beneath two nested containers), and for
every canonical argument tuple consistent with the declared field types,
`decodeArguments` applied to the calldata produced by `encodeArguments` on
those arguments returns the same argument values in declaration order. -/
theorem decodeArguments_round_trip (fields : List (String × PoloSchema))
    (args : List Value)
    (hne : fields.isEmpty = false)
    (hsafe : fields.all (fun f => safeB f.2) = true)
    (hnd : strNodupB (fields.map Prod.fst) = true)
    (hcanon : canonArgsB fields args = true) :
    decodeArguments (some fields) (encodeArguments fields args)
      = .ok (some args) := by
  obtain ⟨dec, h1, h2⟩ := encodeFieldsGo_decode fields args hsafe hnd hcanon
  simp [decodeArguments, encodeArguments, hne, h1, h2]

/-- C1 witness: the amended round-trip at a concrete three-field routine
(a string field, a struct field, an array-of-struct field). -/
theorem decodeArguments_round_trip_witness :
    witC1fields.isEmpty = false ∧
    witC1fields.all (fun f => safeB f.2) = true ∧
    strNodupB (witC1fields.map Prod.fst) = true ∧
    canonArgsB witC1fields witC1args = true ∧
    decodeArguments (some witC1fields) (encodeArguments witC1fields witC1args)
      = .ok (some witC1args) :=
  ⟨by decide, by decide, by decide, by decide,
    decodeArguments_round_trip witC1fields witC1args (by decide) (by decide)
      (by decide) (by decide)⟩
